import Mathlib

/-!
Verification of the streaming JSON parser in rust-implementation/src
(types.rs, lexer.rs, parser.rs).  The Rust code is shallowly embedded:
the lexer and parser operate on an in-memory character list with an
absolute character-position counter, exactly as the Rust `Lexer` does
over a `Cursor` source (the line-buffered refilling and the lifetime
trick in `load_next_line` only move characters from the reader into the
iterator and have no observable effect on the character sequence or on
positions).  Machine floating point (`f64`) is modelled by `Rat`: the
validated numeric text is given its exact rational value, which agrees
with `f64` on every number appearing in a theorem below.
-/

set_option maxHeartbeats 1000000

/-- TokenType from types.rs lines 5-18, with `f64` modelled as `Rat`. -/
inductive TokenType where
  | leftBrace
  | rightBrace
  | leftBracket
  | rightBracket
  | comma
  | colon
  | string (s : String)
  | number (n : Rat)
  | boolean (b : Bool)
  | null
  | eof
deriving DecidableEq, Repr

/-- Token from types.rs lines 20-24: a token type plus its starting position. -/
structure Token where
  tokenType : TokenType
  position : Nat
deriving DecidableEq, Repr

/-- JsonValue from types.rs lines 35-43.  The `HashMap<String, JsonValue>`
of the object variant is modelled as an association list in first-insertion
order; `insertKV` below models `HashMap::insert` (overwrite on duplicate). -/
inductive JsonValue where
  | string (s : String)
  | number (n : Rat)
  | boolean (b : Bool)
  | null
  | object (fields : List (String × JsonValue))
  | array (elems : List JsonValue)

/-- ParseError from types.rs lines 80-112.  `Io` is named `ioError` here;
over an in-memory source the Rust code can never produce it, and this
development also uses it to mark the two control paths the Rust code
cannot reach (the `unreachable!()` arms and exhaustion of the recursion
fuel, which stands for the unbounded Rust call stack). -/
inductive ParseError where
  | unexpectedEof (pos : Nat)
  | invalidCharacter (char : Char) (position : Nat)
  | invalidNumber (pos : Nat)
  | unterminatedString (pos : Nat)
  | invalidEscape (pos : Nat)
  | unexpectedToken (expected : String) (found : String) (position : Nat)
  | trailingComma (pos : Nat)
  | invalidStructure (pos : Nat)
  | ioError (msg : String)
deriving DecidableEq, Repr

/-- Models `HashMap::insert` on the association-list representation of a
JSON object: an existing binding of the key is overwritten in place (the
map keeps the old key slot, as `HashMap::insert` does), a new key is
appended. -/
def insertKV : List (String × JsonValue) → String → JsonValue → List (String × JsonValue)
  | [], k, v => [(k, v)]
  | (k₀, v₀) :: rest, k, v =>
    if k₀ = k then (k₀, v) :: rest else (k₀, v₀) :: insertKV rest k v

/-- Models `HashMap::get`: the value bound to a key, if any. -/
def lookupKV : List (String × JsonValue) → String → Option JsonValue
  | [], _ => none
  | (k₀, v₀) :: rest, k => if k₀ = k then some v₀ else lookupKV rest k

/-- Whitespace test used by `skip_whitespace` (lexer.rs line 78):
Rust `char::is_whitespace`, the Unicode White_Space property. -/
def isJsonWhitespace (c : Char) : Bool :=
  c = ' ' || c = '\t' || c = '\n' || c = '\x0b' || c = '\x0c' || c = '\r' ||
  c = '\u0085' || c = '\u00A0' || c = '\u1680' ||
  ('\u2000' ≤ c && c ≤ '\u200A') ||
  c = '\u2028' || c = '\u2029' || c = '\u202F' || c = '\u205F' || c = '\u3000'

/-- Rust `char::is_ascii_hexdigit` (lexer.rs line 115). -/
def hexOk (c : Char) : Bool :=
  c.isDigit || ('a' ≤ c && c ≤ 'f') || ('A' ≤ c && c ≤ 'F')

/-- Numeric value of one hex digit. -/
def hexVal (c : Char) : Nat :=
  if c.isDigit then c.toNat - 48
  else if 'a' ≤ c then c.toNat - 87
  else c.toNat - 55

/-- Value of a run of decimal digits. -/
def digitsToNat (l : List Char) : Nat :=
  l.foldl (fun a c => a * 10 + (c.toNat - 48)) 0

/-- State of the Rust `Lexer` (lexer.rs lines 6-13) over an in-memory
source: the characters not yet consumed, and `position`, the count of
characters consumed so far (`advance`, lines 64-74, adds one per
character, multi-byte or not). -/
structure LexState where
  input : List Char
  pos : Nat
deriving DecidableEq, Repr

/-- skip_whitespace, lexer.rs lines 76-85: consume the leading whitespace
run, counting one position per character. -/
def skipWhitespace : List Char → Nat → List Char × Nat
  | [], pos => ([], pos)
  | c :: rest, pos =>
    if isJsonWhitespace c then skipWhitespace rest (pos + 1)
    else (c :: rest, pos)

/-- Body of the string-reading loop of read_string, lexer.rs lines
97-141, entered after the opening quote was consumed.  Arguments:
remaining input, current position, the start position recorded for
`UnterminatedString`, and the accumulated decoded characters.  The Rust
escape flag is merged into the backslash branch: setting `escaped` and
looping once is the same as consuming the next character here.  The
`\\u` branch reads exactly 4 hex digits (each consumed before it is
tested, as `advance` does), computes the code point, and rejects values
`char::from_u32` rejects (surrogates) as `InvalidEscape`.  Returns the
result together with the input and position at which reading stopped. -/
def readStringCore : List Char → Nat → Nat → List Char →
    (Except ParseError String) × List Char × Nat
  | [], pos, startPos, _ => (.error (.unterminatedString startPos), [], pos)
  | c :: rest, pos, startPos, acc =>
    if c = '\\' then
      match rest with
      | [] => (.error (.unterminatedString startPos), [], pos + 1)
      | e :: rest₂ =>
        if e = '"' then readStringCore rest₂ (pos + 2) startPos (acc ++ ['"'])
        else if e = '\\' then readStringCore rest₂ (pos + 2) startPos (acc ++ ['\\'])
        else if e = '/' then readStringCore rest₂ (pos + 2) startPos (acc ++ ['/'])
        else if e = 'b' then readStringCore rest₂ (pos + 2) startPos (acc ++ ['\x08'])
        else if e = 'f' then readStringCore rest₂ (pos + 2) startPos (acc ++ ['\x0C'])
        else if e = 'n' then readStringCore rest₂ (pos + 2) startPos (acc ++ ['\n'])
        else if e = 'r' then readStringCore rest₂ (pos + 2) startPos (acc ++ ['\r'])
        else if e = 't' then readStringCore rest₂ (pos + 2) startPos (acc ++ ['\t'])
        else if e = 'u' then
          match rest₂ with
          | [] => (.error (.invalidEscape (pos + 2)), [], pos + 2)
          | h₁ :: r₁ =>
            if hexOk h₁ then
              match r₁ with
              | [] => (.error (.invalidEscape (pos + 3)), [], pos + 3)
              | h₂ :: r₂ =>
                if hexOk h₂ then
                  match r₂ with
                  | [] => (.error (.invalidEscape (pos + 4)), [], pos + 4)
                  | h₃ :: r₃ =>
                    if hexOk h₃ then
                      match r₃ with
                      | [] => (.error (.invalidEscape (pos + 5)), [], pos + 5)
                      | h₄ :: r₄ =>
                        if hexOk h₄ then
                          let code :=
                            ((hexVal h₁ * 16 + hexVal h₂) * 16 + hexVal h₃) * 16 + hexVal h₄
                          if code.isValidChar then
                            readStringCore r₄ (pos + 6) startPos (acc ++ [Char.ofNat code])
                          else (.error (.invalidEscape (pos + 6)), r₄, pos + 6)
                        else (.error (.invalidEscape (pos + 6)), r₄, pos + 6)
                    else (.error (.invalidEscape (pos + 5)), r₃, pos + 5)
                else (.error (.invalidEscape (pos + 4)), r₂, pos + 4)
            else (.error (.invalidEscape (pos + 3)), r₁, pos + 3)
        else (.error (.invalidEscape (pos + 2)), rest₂, pos + 2)
    else if c = '"' then (.ok (String.mk acc), rest, pos + 1)
    else readStringCore rest (pos + 1) startPos (acc ++ [c])
termination_by structural input => input

/-- read_string, lexer.rs lines 87-142: requires the opening quote (when
missing the Rust code reports `InvalidCharacter` with the quote character
itself, a quirk kept here), then runs the decoding loop. -/
def readString : List Char → Nat → (Except ParseError String) × List Char × Nat
  | '"' :: rest, pos => readStringCore rest (pos + 1) pos []
  | other, pos => (.error (.invalidCharacter '"' pos), other, pos)

/-- Maximal run of ascii decimal digits, with the characters after it and
the advanced position (the digit loops of read_number, lexer.rs). -/
def takeDigits : List Char → Nat → List Char × List Char × Nat
  | [], pos => ([], [], pos)
  | c :: rest, pos =>
    if c.isDigit then
      let (ds, r, p) := takeDigits rest (pos + 1)
      (c :: ds, r, p)
    else ([], c :: rest, pos)

/-- Maximal run of alphabetic characters (read_literal, lexer.rs lines
226-239).  Rust uses Unicode `char::is_alphabetic`; ascii `isAlpha` is
used here, which agrees on every ascii character (the only ones the
grammar distinguishes). -/
def takeAlpha : List Char → Nat → List Char × List Char × Nat
  | [], pos => ([], [], pos)
  | c :: rest, pos =>
    if c.isAlpha then
      let (ds, r, p) := takeAlpha rest (pos + 1)
      (c :: ds, r, p)
    else ([], c :: rest, pos)

/-- Exact value of the validated numeric text, from its parts: sign,
integer digits, fraction digits, exponent sign and exponent digits.
Models `number_str.parse::<f64>()` (lexer.rs line 222) exactly over the
rationals; on the grammar-validated text that parse never fails, so no
error case exists here. -/
def mkNumber (neg : Bool) (intDs fds : List Char) (eneg : Bool) (eds : List Char) : Rat :=
  let mNat := digitsToNat intDs * 10 ^ fds.length + digitsToNat fds
  let m : Int := if neg then -(mNat : Int) else (mNat : Int)
  let e := digitsToNat eds
  if eneg then mkRat m (10 ^ fds.length * 10 ^ e)
  else mkRat (m * 10 ^ e) (10 ^ fds.length)

/-- Exponent part of read_number, lexer.rs lines 193-220: an optional
`e`/`E` with optional sign must be followed by at least one digit, else
`InvalidNumber` at the number start. -/
def numExp (neg : Bool) (intDs fds : List Char) (input : List Char) (pos startPos : Nat) :
    (Except ParseError Rat) × List Char × Nat :=
  match input with
  | c :: rest =>
    if c = 'e' || c = 'E' then
      let (eneg, input₂, pos₂) :=
        match rest with
        | '+' :: r => (false, r, pos + 2)
        | '-' :: r => (true, r, pos + 2)
        | r => (false, r, pos + 1)
      let (eds, rest₃, pos₃) := takeDigits input₂ pos₂
      if eds.isEmpty then (.error (.invalidNumber startPos), rest₃, pos₃)
      else (.ok (mkNumber neg intDs fds eneg eds), rest₃, pos₃)
    else (.ok (mkNumber neg intDs fds false []), c :: rest, pos)
  | [] => (.ok (mkNumber neg intDs fds false []), [], pos)

/-- Fraction part of read_number, lexer.rs lines 173-191: a `.` must be
followed by at least one digit, else `InvalidNumber` at the number
start. -/
def numTail (neg : Bool) (intDs : List Char) (input : List Char) (pos startPos : Nat) :
    (Except ParseError Rat) × List Char × Nat :=
  match input with
  | '.' :: rest =>
    let (fds, rest₂, pos₂) := takeDigits rest (pos + 1)
    if fds.isEmpty then (.error (.invalidNumber startPos), rest₂, pos₂)
    else numExp neg intDs fds rest₂ pos₂ startPos
  | _ => numExp neg intDs [] input pos startPos

/-- read_number, lexer.rs lines 144-224: optional `-`; then either a
single `0` (the zero branch consumes exactly one digit, which is what
makes `01` lex as the number 0 followed by the number 1) or a nonempty
digit run; then fraction and exponent. -/
def readNumber (input₀ : List Char) (pos₀ : Nat) :
    (Except ParseError Rat) × List Char × Nat :=
  let startPos := pos₀
  let (neg, input₁, pos₁) :=
    match input₀ with
    | '-' :: rest => (true, rest, pos₀ + 1)
    | _ => (false, input₀, pos₀)
  match input₁ with
  | [] => (.error (.invalidNumber startPos), [], pos₁)
  | c :: rest =>
    if c = '0' then numTail neg ['0'] rest (pos₁ + 1) startPos
    else if c.isDigit then
      let (ds, rest₂, pos₂) := takeDigits (c :: rest) pos₁
      numTail neg ds rest₂ pos₂ startPos
    else (.error (.invalidNumber startPos), c :: rest, pos₁)

/-- One step of the lexer iterator, lexer.rs lines 242-320: skip
whitespace, then classify by the first character; end of input yields an
`Eof` token rather than ending the stream.  Alongside the token or error
the successor lexer state is returned (on an error the state is where
reading stopped, so the offending character of `InvalidCharacter` stays
unconsumed exactly as in Rust). -/
def lexNext (st : LexState) : (Except ParseError Token) × LexState :=
  let (input, pos) := skipWhitespace st.input st.pos
  match input with
  | [] => (.ok ⟨.eof, pos⟩, ⟨[], pos⟩)
  | c :: rest =>
    if c = '\x7b' then (.ok ⟨.leftBrace, pos⟩, ⟨rest, pos + 1⟩)
    else if c = '\x7d' then (.ok ⟨.rightBrace, pos⟩, ⟨rest, pos + 1⟩)
    else if c = '[' then (.ok ⟨.leftBracket, pos⟩, ⟨rest, pos + 1⟩)
    else if c = ']' then (.ok ⟨.rightBracket, pos⟩, ⟨rest, pos + 1⟩)
    else if c = ',' then (.ok ⟨.comma, pos⟩, ⟨rest, pos + 1⟩)
    else if c = ':' then (.ok ⟨.colon, pos⟩, ⟨rest, pos + 1⟩)
    else if c = '"' then
      match readString (c :: rest) pos with
      | (.ok s, rest₂, pos₂) => (.ok ⟨.string s, pos⟩, ⟨rest₂, pos₂⟩)
      | (.error e, rest₂, pos₂) => (.error e, ⟨rest₂, pos₂⟩)
    else if c = '-' || c.isDigit then
      match readNumber (c :: rest) pos with
      | (.ok n, rest₂, pos₂) => (.ok ⟨.number n, pos⟩, ⟨rest₂, pos₂⟩)
      | (.error e, rest₂, pos₂) => (.error e, ⟨rest₂, pos₂⟩)
    else if c.isAlpha then
      let (lit, rest₂, pos₂) := takeAlpha (c :: rest) pos
      if String.mk lit = "true" then (.ok ⟨.boolean true, pos⟩, ⟨rest₂, pos₂⟩)
      else if String.mk lit = "false" then (.ok ⟨.boolean false, pos⟩, ⟨rest₂, pos₂⟩)
      else if String.mk lit = "null" then (.ok ⟨.null, pos⟩, ⟨rest₂, pos₂⟩)
      else (.error (.invalidCharacter c pos), ⟨rest₂, pos₂⟩)
    else (.error (.invalidCharacter c pos), ⟨c :: rest, pos⟩)

/-- Fractional decimal digits of `rem/den`, up to a digit budget; stops
when the remainder vanishes. -/
def fracDigits : Nat → Nat → Nat → List Char
  | 0, _, _ => []
  | fuel + 1, rem, den =>
    if rem = 0 then []
    else Char.ofNat (48 + rem * 10 / den) :: fracDigits fuel (rem * 10 % den) den

/-- Rendering of a number by Rust `Display` for `f64` (`write!("{}", n)`,
types.rs line 49), transported to the exact rational model: sign, integer
part, and the fractional expansion when it is nonzero (for every float,
Rust prints the shortest decimal that rounds back to it, which over the
numbers of this development is this exact expansion; 32 fractional digits
cover every such number). -/
def dispNum (q : Rat) : String :=
  let sign := if q.num < 0 then "-" else ""
  let n := q.num.natAbs
  let ip := n / q.den
  let rem := n % q.den
  if rem = 0 then sign ++ toString ip
  else sign ++ toString ip ++ "." ++ String.mk (fracDigits 32 rem q.den)

/-- Rust `Debug` for the modelled `f64`: integral values print with a
trailing `.0` (as `1.0`), others as their decimal expansion. -/
def debugNum (q : Rat) : String :=
  if q.den = 1 then toString q.num ++ ".0" else dispNum q

/-- Rust `Debug` escaping of one character inside a `String` field
(`char::escape_debug`): quote, backslash and the common control
characters get their two-character escapes, other control characters a
`\\u` escape, everything else prints as itself. -/
def debugStrChar (c : Char) : String :=
  if c = '"' then "\\\""
  else if c = '\\' then "\\\\"
  else if c = '\n' then "\\n"
  else if c = '\r' then "\\r"
  else if c = '\t' then "\\t"
  else if c = '\x00' then "\\0"
  else if c.toNat < 32 then "\\u\x7b" ++ String.mk (Nat.toDigits 16 c.toNat) ++ "\x7d"
  else String.singleton c

/-- Rust `Debug` for `String`: quoted, contents escaped. -/
def debugStr (s : String) : String :=
  "\"" ++ String.join (s.data.map debugStrChar) ++ "\""

/-- The text `format!("{:?}", token_type)` produces for a token type
(derived `Debug` on `TokenType`, types.rs line 5), used in the
`expected`/`found` fields of `UnexpectedToken`. -/
def debugFmt : TokenType → String
  | .leftBrace => "LeftBrace"
  | .rightBrace => "RightBrace"
  | .leftBracket => "LeftBracket"
  | .rightBracket => "RightBracket"
  | .comma => "Comma"
  | .colon => "Colon"
  | .string s => "String(" ++ debugStr s ++ ")"
  | .number n => "Number(" ++ debugNum n ++ ")"
  | .boolean b => "Boolean(" ++ (if b then "true" else "false") ++ ")"
  | .null => "Null"
  | .eof => "Eof"

/-- The discriminant of a token type (`std::mem::discriminant`,
parser.rs line 46): two token types compare equal iff they are the same
variant, payloads ignored. -/
def discr : TokenType → Nat
  | .leftBrace => 0
  | .rightBrace => 1
  | .leftBracket => 2
  | .rightBracket => 3
  | .comma => 4
  | .colon => 5
  | .string _ => 6
  | .number _ => 7
  | .boolean _ => 8
  | .null => 9
  | .eof => 10

/-- State of StreamingJsonParser (parser.rs lines 6-10): the lexer, the
last consumed token (`current_token`, written but never read by the Rust
code, kept for fidelity) and the one-token lookahead buffer
(`peeked_token`). -/
structure PState where
  lex : LexState
  current : Option Token
  peeked : Option (Except ParseError Token)
deriving Repr

/-- peek_token, parser.rs lines 21-29: fill the lookahead buffer from the
lexer if it is empty, and return its content without consuming it.  (The
`unwrap_or_else(Eof)` of the Rust code handles the `None` its lexer
returns after an I/O failure; over an in-memory source `lexNext` always
yields an item, so that branch is dead here.) -/
def peekToken (s : PState) : (Except ParseError Token) × PState :=
  match s.peeked with
  | some r => (r, s)
  | none =>
    let (r, l) := lexNext s.lex
    (r, { s with lex := l, peeked := some r })

/-- advance_token, parser.rs lines 31-42: take the peeked item if
present, else pull one from the lexer; a token is recorded as
`current_token`, an error propagates (note that `peeked_token.take()`
clears the buffer even when it held an error). -/
def advanceToken (s : PState) : (Except ParseError Token) × PState :=
  match s.peeked with
  | some (.ok t) => (.ok t, { s with peeked := none, current := some t })
  | some (.error e) => (.error e, { s with peeked := none })
  | none =>
    let (r, l) := lexNext s.lex
    match r with
    | .ok t => (.ok t, { s with lex := l, current := some t })
    | .error e => (.error e, { s with lex := l })

/-- expect_token, parser.rs lines 44-54: advance and compare
discriminants; a mismatch is `UnexpectedToken` with the `Debug` texts of
the expected and found token types at the found token position. -/
def expectToken (expected : TokenType) (s : PState) : (Except ParseError Token) × PState :=
  match advanceToken s with
  | (.error e, s₁) => (.error e, s₁)
  | (.ok t, s₁) =>
    if discr t.tokenType = discr expected then (.ok t, s₁)
    else
      (.error (.unexpectedToken (debugFmt expected) (debugFmt t.tokenType) t.position), s₁)

mutual

/-- parse_value, parser.rs lines 56-99: dispatch on the peeked token.
The fuel argument stands for the Rust call stack; each recursive descent
consumes at least one input character per unit, and every entry point
below supplies more fuel than the input has characters, so the zero-fuel
branch (marked with `ioError`, like the two `unreachable!()` arms) is
never taken for the inputs of any theorem in this file. -/
def parseValue : Nat → PState → (Except ParseError JsonValue) × PState
  | 0, s => (.error (.ioError "recursion limit"), s)
  | fuel + 1, s =>
    let (r, s₁) := peekToken s
    match r with
    | .error e => (.error e, s₁)
    | .ok token =>
      match token.tokenType with
      | .leftBrace => parseObject fuel s₁
      | .leftBracket => parseArray fuel s₁
      | .string _ =>
        (match advanceToken s₁ with
         | (.error e, s₂) => (.error e, s₂)
         | (.ok t, s₂) =>
           match t.tokenType with
           | .string str => (.ok (.string str), s₂)
           | _ => (.error (.ioError "unreachable"), s₂))
      | .number _ =>
        (match advanceToken s₁ with
         | (.error e, s₂) => (.error e, s₂)
         | (.ok t, s₂) =>
           match t.tokenType with
           | .number n => (.ok (.number n), s₂)
           | _ => (.error (.ioError "unreachable"), s₂))
      | .boolean _ =>
        (match advanceToken s₁ with
         | (.error e, s₂) => (.error e, s₂)
         | (.ok t, s₂) =>
           match t.tokenType with
           | .boolean b => (.ok (.boolean b), s₂)
           | _ => (.error (.ioError "unreachable"), s₂))
      | .null =>
        (match advanceToken s₁ with
         | (.error e, s₂) => (.error e, s₂)
         | (.ok _, s₂) => (.ok .null, s₂))
      | _ =>
        (.error (.unexpectedToken "JSON value" (debugFmt token.tokenType) token.position), s₁)

/-- parse_object, parser.rs lines 101-152: consume `\x7b`; an immediately
peeked `\x7d` short-circuits to the empty object (a peeked lexer error is
skipped by the `if let` there and resurfaces in the member loop); else
parse members. -/
def parseObject : Nat → PState → (Except ParseError JsonValue) × PState
  | 0, s => (.error (.ioError "recursion limit"), s)
  | fuel + 1, s =>
    match expectToken .leftBrace s with
    | (.error e, s₁) => (.error e, s₁)
    | (.ok _, s₁) =>
      let (r, s₂) := peekToken s₁
      match r with
      | .ok t =>
        if t.tokenType = .rightBrace then
          match advanceToken s₂ with
          | (.error e, s₃) => (.error e, s₃)
          | (.ok _, s₃) => (.ok (.object []), s₃)
        else parseObjectLoop fuel [] s₂
      | .error _ => parseObjectLoop fuel [] s₂

/-- Member loop of parse_object, parser.rs lines 112-149: string key,
colon, value, insert (overwriting a duplicate key), then either `\x7d`
(finish) or `,`; after a comma, a peeked `\x7d` is the dedicated
`TrailingComma` error at the position of that closing brace (a peeked
lexer error at that point is skipped by the `if let` and resurfaces at
the key parse of the next iteration). -/
def parseObjectLoop : Nat → List (String × JsonValue) → PState →
    (Except ParseError JsonValue) × PState
  | 0, _, s => (.error (.ioError "recursion limit"), s)
  | fuel + 1, obj, s =>
    match expectToken (.string "") s with
    | (.error e, s₁) => (.error e, s₁)
    | (.ok keyTok, s₁) =>
      match keyTok.tokenType with
      | .string key =>
        (match expectToken .colon s₁ with
         | (.error e, s₂) => (.error e, s₂)
         | (.ok _, s₂) =>
           match parseValue fuel s₂ with
           | (.error e, s₃) => (.error e, s₃)
           | (.ok v, s₃) =>
             let obj₂ := insertKV obj key v
             let (r, s₄) := peekToken s₃
             match r with
             | .error e => (.error e, s₄)
             | .ok sep =>
               match sep.tokenType with
               | .rightBrace =>
                 (match advanceToken s₄ with
                  | (.error e, s₅) => (.error e, s₅)
                  | (.ok _, s₅) => (.ok (.object obj₂), s₅))
               | .comma =>
                 (match advanceToken s₄ with
                  | (.error e, s₅) => (.error e, s₅)
                  | (.ok _, s₅) =>
                    let (r₂, s₆) := peekToken s₅
                    match r₂ with
                    | .ok nt =>
                      if nt.tokenType = .rightBrace then
                        (.error (.trailingComma nt.position), s₆)
                      else parseObjectLoop fuel obj₂ s₆
                    | .error _ => parseObjectLoop fuel obj₂ s₆)
               | _ =>
                 (.error (.unexpectedToken "\x27,\x27 or \x27\x7d\x27"
                    (debugFmt sep.tokenType) sep.position), s₄))
      | _ => (.error (.ioError "unreachable"), s₁)

/-- parse_array, parser.rs lines 154-198: consume `[`; an immediately
peeked `]` short-circuits to the empty array; else parse elements. -/
def parseArray : Nat → PState → (Except ParseError JsonValue) × PState
  | 0, s => (.error (.ioError "recursion limit"), s)
  | fuel + 1, s =>
    match expectToken .leftBracket s with
    | (.error e, s₁) => (.error e, s₁)
    | (.ok _, s₁) =>
      let (r, s₂) := peekToken s₁
      match r with
      | .ok t =>
        if t.tokenType = .rightBracket then
          match advanceToken s₂ with
          | (.error e, s₃) => (.error e, s₃)
          | (.ok _, s₃) => (.ok (.array []), s₃)
        else parseArrayLoop fuel [] s₂
      | .error _ => parseArrayLoop fuel [] s₂

/-- Element loop of parse_array, parser.rs lines 165-195: value, then
either `]` (finish) or `,`; after a comma, a peeked `]` is
`TrailingComma` at the position of that closing bracket. -/
def parseArrayLoop : Nat → List JsonValue → PState →
    (Except ParseError JsonValue) × PState
  | 0, _, s => (.error (.ioError "recursion limit"), s)
  | fuel + 1, arr, s =>
    match parseValue fuel s with
    | (.error e, s₁) => (.error e, s₁)
    | (.ok v, s₁) =>
      let arr₂ := arr ++ [v]
      let (r, s₂) := peekToken s₁
      match r with
      | .error e => (.error e, s₂)
      | .ok sep =>
        match sep.tokenType with
        | .rightBracket =>
          (match advanceToken s₂ with
           | (.error e, s₃) => (.error e, s₃)
           | (.ok _, s₃) => (.ok (.array arr₂), s₃))
        | .comma =>
          (match advanceToken s₂ with
           | (.error e, s₃) => (.error e, s₃)
           | (.ok _, s₃) =>
             let (r₂, s₄) := peekToken s₃
             match r₂ with
             | .ok nt =>
               if nt.tokenType = .rightBracket then
                 (.error (.trailingComma nt.position), s₄)
               else parseArrayLoop fuel arr₂ s₄
             | .error _ => parseArrayLoop fuel arr₂ s₄)
        | _ =>
          (.error (.unexpectedToken "\x27,\x27 or \x27]\x27"
             (debugFmt sep.tokenType) sep.position), s₂)

end

/-- parse_single, parser.rs lines 200-217: parse one value, then require
the next peeked lexeme to be `Eof`; any other token is `UnexpectedToken`
expecting "end of input" at that token, and a peeked lexer error
propagates as itself. -/
def parseSingle (fuel : Nat) (s : PState) : (Except ParseError JsonValue) × PState :=
  match parseValue fuel s with
  | (.error e, s₁) => (.error e, s₁)
  | (.ok v, s₁) =>
    let (r, s₂) := peekToken s₁
    match r with
    | .error e => (.error e, s₂)
    | .ok t =>
      if t.tokenType = .eof then (.ok v, s₂)
      else (.error (.unexpectedToken "end of input" (debugFmt t.tokenType) t.position), s₂)

/-- One pull of the stream iterator, parser.rs lines 220-230: a peeked
`Eof` ends the sequence (`none`), any other token starts a value parse,
and a peeked lexer error is yielded as an error item without being
consumed. -/
def streamNext (fuel : Nat) (s : PState) :
    Option (Except ParseError JsonValue) × PState :=
  let (r, s₁) := peekToken s
  match r with
  | .ok t =>
    if t.tokenType = .eof then (none, s₁)
    else
      let (v, s₂) := parseValue fuel s₁
      (some v, s₂)
  | .error e => (some (.error e), s₁)

/-- Stream state after `n` pulls. -/
def streamIter (fuel : Nat) : Nat → PState → PState
  | 0, s => s
  | n + 1, s => streamIter fuel n (streamNext fuel s).2

/-- Collect up to `n` items from the stream, stopping where the iterator
yields `none` (what `Iterator::collect` observes). -/
def streamTake (fuel : Nat) : Nat → PState → List (Except ParseError JsonValue)
  | 0, _ => []
  | n + 1, s =>
    match streamNext fuel s with
    | (none, _) => []
    | (some r, s₁) => r :: streamTake fuel n s₁

/-- Fresh parser over an in-memory input (StreamingJsonParser::new over a
Cursor). -/
def initPState (input : String) : PState :=
  ⟨⟨input.data, 0⟩, none, none⟩

/-- parse_single from a fresh parser over a character list; the fuel
exceeds the character count, which the recursive descent can never
outrun. -/
def parseJsonChars (l : List Char) : Except ParseError JsonValue :=
  (parseSingle (l.length + 1) ⟨⟨l, 0⟩, none, none⟩).1

/-- parse_json_string, parser.rs lines 232-236. -/
def parse_json_string (input : String) : Except ParseError JsonValue :=
  parseJsonChars input.data

mutual

/-- Display for JsonValue, types.rs lines 45-78.  Strings are written
between bare quotes with NO escaping of their contents (the round-trip
bug); numbers print by `dispNum`; objects iterate their mapping (here:
association-list order) emitting `"key":value` pairs. -/
def render : JsonValue → String
  | .string s => "\"" ++ s ++ "\""
  | .number n => dispNum n
  | .boolean b => if b then "true" else "false"
  | .null => "null"
  | .object fields => "\x7b" ++ renderFields fields true ++ "\x7d"
  | .array elems => "[" ++ renderElems elems true ++ "]"

/-- Object body of Display (types.rs lines 52-63), with the
`first`-comma flag of the Rust loop. -/
def renderFields : List (String × JsonValue) → Bool → String
  | [], _ => ""
  | (k, v) :: rest, first =>
    (if first then "" else ",") ++ "\"" ++ k ++ "\":" ++ render v ++ renderFields rest false

/-- Array body of Display (types.rs lines 64-75). -/
def renderElems : List JsonValue → Bool → String
  | [], _ => ""
  | v :: rest, first =>
    (if first then "" else ",") ++ render v ++ renderElems rest false

end

/-- Leading all-whitespace characters are consumed one position each. -/
theorem skipWhitespace_ws_append (ws l : List Char) (pos : Nat)
    (h : ∀ c ∈ ws, isJsonWhitespace c = true) :
    skipWhitespace (ws ++ l) pos = skipWhitespace l (pos + ws.length) := by
  induction ws generalizing pos with
  | nil => simp
  | cons c rest ih =>
    have hc : isJsonWhitespace c = true := h c (List.mem_cons_self c rest)
    have hrest : ∀ x ∈ rest, isJsonWhitespace x = true :=
      fun x hm => h x (List.mem_cons_of_mem _ hm)
    simp only [List.cons_append, skipWhitespace, hc, if_true]
    simp only [List.append_eq]
    rw [ih (pos + 1) hrest]
    congr 1
    simp only [List.length_cons]
    omega

/-- Overwriting insertion binds the key to the new value. -/
theorem lookupKV_insertKV_self (m : List (String × JsonValue)) (k : String) (v : JsonValue) :
    lookupKV (insertKV m k v) k = some v := by
  induction m with
  | nil => simp [insertKV, lookupKV]
  | cons p rest ih =>
    by_cases h : p.1 = k
    · simp [insertKV, lookupKV, h]
    · simp [insertKV, lookupKV, h, ih]

/-- Overwriting insertion leaves every other key unchanged. -/
theorem lookupKV_insertKV_other (m : List (String × JsonValue)) (k k' : String)
    (v : JsonValue) (hne : k' ≠ k) :
    lookupKV (insertKV m k v) k' = lookupKV m k' := by
  induction m with
  | nil =>
    have hne' : k ≠ k' := fun hh => hne hh.symm
    simp [insertKV, lookupKV, hne']
  | cons p rest ih =>
    by_cases h : p.1 = k
    · subst h
      have hne' : p.1 ≠ k' := fun hh => hne hh.symm
      simp [insertKV, lookupKV, hne']
    · simp only [insertKV, h, if_false, lookupKV]
      by_cases h2 : p.1 = k'
      · simp [h2]
      · simp [h2, ih]

/-- CLAIM C1.  The spec round-trip property is right and the code breaks
it: `Display for JsonValue` (types.rs line 48) writes string contents
between quotes without escaping, so the one-character string containing a
double quote renders as three quote characters, which `parse_json_string`
reads as an empty string followed by an unterminated string, an error —
not `Ok` of the original value. -/
theorem claim_C1_roundtrip_broken :
    render (JsonValue.string "\"") = "\"\"\"" ∧
    parse_json_string (render (JsonValue.string "\"")) =
      .error (.unterminatedString 2) := by
  exact ⟨rfl, rfl⟩

/-- CLAIM C2, counterexample.  Parsing `01` does fail, but not with
`InvalidNumber`: the zero branch of read_number (lexer.rs lines 154-156)
consumes the single `0` as the number 0, and parse_single then rejects
the following `1` as trailing content, an `UnexpectedToken` expecting
end of input. -/
theorem claim_C2_counterexample :
    parse_json_string "01" =
      .error (.unexpectedToken "end of input" "Number(1.0)" 1) ∧
    (match parse_json_string "01" with
     | .error (.invalidNumber _) => False
     | _ => True) := by
  exact ⟨rfl, trivial⟩

/-- CLAIM C2, amended.  Parsing the single-document input `01` with
parse_json_string returns an error, namely `UnexpectedToken` with
expected description "end of input", found description `Number(1.0)`,
at position 1 — the `01` text is lexed as the two numbers 0 and 1 and
the second is trailing content; no `InvalidNumber` arises. -/
theorem claim_C2_amended :
    parse_json_string "01" =
      .error (.unexpectedToken "end of input" "Number(1.0)" 1) := rfl

/-- Reading a quote-and-backslash-free run inside a string consumes it
verbatim up to and including the closing quote. -/
theorem readStringCore_clean (s : List Char) (rest : List Char) (pos sp : Nat)
    (acc : List Char) (h : ∀ c ∈ s, c ≠ '"' ∧ c ≠ '\\') :
    readStringCore (s ++ '"' :: rest) pos sp acc =
      (.ok (String.mk (acc ++ s)), rest, pos + s.length + 1) := by
  induction s generalizing pos acc with
  | nil => simp +decide [readStringCore.eq_def]
  | cons c cs ih =>
    have hc := h c (List.mem_cons_self c cs)
    have hcs : ∀ x ∈ cs, x ≠ '"' ∧ x ≠ '\\' :=
      fun x hm => h x (List.mem_cons_of_mem _ hm)
    have hstep : readStringCore (c :: (cs ++ '"' :: rest)) pos sp acc =
        readStringCore (cs ++ '"' :: rest) (pos + 1) sp (acc ++ [c]) := by
      conv_lhs => rw [readStringCore.eq_def]
      simp [hc.1, hc.2]
    rw [List.cons_append, hstep, ih (pos + 1) (acc ++ [c]) hcs]
    have harith : pos + 1 + cs.length + 1 = pos + (cs.length + 1) + 1 := by omega
    simp [List.append_assoc, List.length_cons, harith]

/-- CLAIM C4.  String lexing decodes the eight simple escapes and
`\\uXXXX` with exactly 4 hex digits; any other escape character `c` is
`InvalidEscape` (at the position after the consumed escape character);
`"\\u0041"` parses to the string `A`; `"\\q"` fails with `InvalidEscape`;
a truncated `"\\u004"` (three hex digits) fails with `InvalidEscape`;
an unterminated `"abc` fails with `UnterminatedString` at the opening
quote position 0. -/
theorem claim_C4_escapes (c : Char)
    (h : c ∉ ['"', '\\', '/', 'b', 'f', 'n', 'r', 't', 'u']) :
    parseJsonChars ['"', '\\', c, '"'] = .error (.invalidEscape 3) ∧
    parse_json_string "\"\\u0041\"" = .ok (.string "A") ∧
    parse_json_string "\"\\q\"" = .error (.invalidEscape 3) ∧
    parse_json_string "\"abc" = .error (.unterminatedString 0) ∧
    parse_json_string "\"\\u004\"" = .error (.invalidEscape 7) ∧
    parse_json_string "\"\\\"\\\\\\/\\b\\f\\n\\r\\t\"" = .ok (.string "\"\\/\x08\x0C\n\r\t") := by
  simp only [List.mem_cons, not_or] at h
  obtain ⟨h1, h2, h3, h4, h5, h6, h7, h8, h9, -⟩ := h
  refine ⟨?_, rfl, rfl, rfl, rfl, rfl⟩
  simp +decide [parseJsonChars, parseSingle, parseValue, peekToken, lexNext,
    skipWhitespace, readString, readStringCore, h1, h2, h3, h4, h5, h6, h7, h8, h9]

/-- Witness for C4 at the concrete escape character `q`. -/
theorem claim_C4_escapes_witness :
    ('q' ∉ ['"', '\\', '/', 'b', 'f', 'n', 'r', 't', 'u']) ∧
    parseJsonChars ['"', '\\', 'q', '"'] = .error (.invalidEscape 3) :=
  ⟨by decide, (claim_C4_escapes 'q' (by decide)).1⟩

/-- CLAIM C3.  When the comma separating members of an array or object is
followed, after any run of whitespace, by the matching closing bracket or
brace, the parse fails with the dedicated `TrailingComma` error carrying
the position of that closing lexeme (the lexeme following the comma) —
not with the generic `UnexpectedToken`; in particular both named inputs
fail exactly so. -/
theorem claim_C3_trailing_comma (ws : List Char)
    (h : ∀ c ∈ ws, isJsonWhitespace c = true) :
    parseJsonChars ('[' :: '1' :: ',' :: (ws ++ [']'])) =
      .error (.trailingComma (3 + ws.length)) ∧
    parseJsonChars ('\x7b' :: '"' :: 'a' :: '"' :: ':' :: '1' :: ',' :: (ws ++ ['\x7d'])) =
      .error (.trailingComma (7 + ws.length)) ∧
    parse_json_string "\x7b\"key\": \"value\",\x7d" = .error (.trailingComma 16) ∧
    parse_json_string "[1,2,]" = .error (.trailingComma 5) := by
  refine ⟨?_, ?_, ?_, rfl⟩
  · have hlen : ('[' :: '1' :: ',' :: (ws ++ [']'])).length + 1 =
        ws.length + 1 + 1 + 1 + 1 + 1 := by
      simp only [List.length_cons, List.length_append, List.length_nil]
    unfold parseJsonChars
    rw [hlen]
    simp +decide [parseSingle, parseValue, parseArray, parseArrayLoop, peekToken,
      advanceToken, expectToken, lexNext, skipWhitespace, readNumber, numTail, numExp,
      takeDigits, debugFmt, discr, mkNumber, digitsToNat,
      skipWhitespace_ws_append ws [']'] 3 h]
  · have hlen : ('\x7b' :: '"' :: 'a' :: '"' :: ':' :: '1' :: ',' :: (ws ++ ['\x7d'])).length + 1 =
        ws.length + 5 + 1 + 1 + 1 + 1 := by
      simp only [List.length_cons, List.length_append, List.length_nil]
    have t0 : lexNext ⟨'\x7b' :: '"' :: 'a' :: '"' :: ':' :: '1' :: ',' :: (ws ++ ['\x7d']), 0⟩ =
        (.ok ⟨.leftBrace, 0⟩, ⟨'"' :: 'a' :: '"' :: ':' :: '1' :: ',' :: (ws ++ ['\x7d']), 1⟩) := rfl
    have t1 : lexNext ⟨'"' :: 'a' :: '"' :: ':' :: '1' :: ',' :: (ws ++ ['\x7d']), 1⟩ =
        (.ok ⟨.string "a", 1⟩, ⟨':' :: '1' :: ',' :: (ws ++ ['\x7d']), 4⟩) := by
      simp +decide [lexNext, skipWhitespace, readString, readStringCore.eq_def]
    have t2 : lexNext ⟨':' :: '1' :: ',' :: (ws ++ ['\x7d']), 4⟩ =
        (.ok ⟨.colon, 4⟩, ⟨'1' :: ',' :: (ws ++ ['\x7d']), 5⟩) := rfl
    have t3 : lexNext ⟨'1' :: ',' :: (ws ++ ['\x7d']), 5⟩ =
        (.ok ⟨.number 1, 5⟩, ⟨',' :: (ws ++ ['\x7d']), 6⟩) := by
      simp +decide [lexNext, skipWhitespace, readNumber, numTail, numExp,
        takeDigits.eq_def, mkNumber, digitsToNat]
    have t4 : lexNext ⟨',' :: (ws ++ ['\x7d']), 6⟩ =
        (.ok ⟨.comma, 6⟩, ⟨ws ++ ['\x7d'], 7⟩) := rfl
    have t5 : lexNext ⟨ws ++ ['\x7d'], 7⟩ =
        (.ok ⟨.rightBrace, 7 + ws.length⟩, ⟨[], 7 + ws.length + 1⟩) := by
      unfold lexNext
      rw [skipWhitespace_ws_append ws ['\x7d'] 7 h]
      simp +decide [skipWhitespace]
    unfold parseJsonChars
    rw [hlen]
    simp +decide [parseSingle, parseValue, parseObject, parseObjectLoop, peekToken,
      advanceToken, expectToken, discr, insertKV, t0, t1, t2, t3, t4, t5]
  · show parseJsonChars ['\x7b', '"', 'k', 'e', 'y', '"', ':', ' ', '"', 'v', 'a', 'l',
        'u', 'e', '"', ',', '\x7d'] = .error (.trailingComma 16)
    simp +decide [parseJsonChars, parseSingle, parseValue, parseObject,
      parseObjectLoop, peekToken, advanceToken, expectToken, lexNext, skipWhitespace,
      readString, readStringCore, debugFmt, discr, insertKV]

/-- Witness for C3 at the empty whitespace run. -/
theorem claim_C3_trailing_comma_witness :
    (∀ c ∈ ([] : List Char), isJsonWhitespace c = true) ∧
    parseJsonChars ('[' :: '1' :: ',' :: (([] : List Char) ++ [']'])) =
      .error (.trailingComma (3 + ([] : List Char).length)) :=
  ⟨by simp, (claim_C3_trailing_comma [] (by simp)).1⟩

/-- A quote followed by a quote-and-backslash-free run and a closing
quote lexes as one string token at the opening position, consuming
through the closing quote. -/
theorem lexNext_clean_string (s r : List Char) (p : Nat)
    (h : ∀ c ∈ s, c ≠ '"' ∧ c ≠ '\\') :
    lexNext ⟨'"' :: (s ++ '"' :: r), p⟩ =
      (.ok ⟨.string (String.mk s), p⟩, ⟨r, p + s.length + 2⟩) := by
  unfold lexNext
  have hsw : skipWhitespace ('"' :: (s ++ '"' :: r)) p = ('"' :: (s ++ '"' :: r), p) := rfl
  rw [hsw]
  have hrs : readString ('"' :: (s ++ '"' :: r)) p =
      readStringCore (s ++ '"' :: r) (p + 1) p [] := rfl
  simp only [hrs, readStringCore_clean s r (p + 1) p [] h]
  simp +decide
  omega

/-- End of input lexes as the `Eof` token at the current position. -/
theorem lexNext_eof (p : Nat) : lexNext ⟨[], p⟩ = (.ok ⟨.eof, p⟩, ⟨[], p⟩) := rfl

/-- A comma lexes as one token at the current position. -/
theorem lexNext_comma (r : List Char) (p : Nat) :
    lexNext ⟨',' :: r, p⟩ = (.ok ⟨.comma, p⟩, ⟨r, p + 1⟩) := rfl

/-- A colon lexes as one token at the current position. -/
theorem lexNext_colon (r : List Char) (p : Nat) :
    lexNext ⟨':' :: r, p⟩ = (.ok ⟨.colon, p⟩, ⟨r, p + 1⟩) := rfl

/-- An opening brace lexes as one token at the current position. -/
theorem lexNext_lbrace (r : List Char) (p : Nat) :
    lexNext ⟨'\x7b' :: r, p⟩ = (.ok ⟨.leftBrace, p⟩, ⟨r, p + 1⟩) := rfl

/-- A closing brace lexes as one token at the current position. -/
theorem lexNext_rbrace (r : List Char) (p : Nat) :
    lexNext ⟨'\x7d' :: r, p⟩ = (.ok ⟨.rightBrace, p⟩, ⟨r, p + 1⟩) := rfl

/-- CLAIM C6.  Duplicate keys: when an object document binds the same key
twice, the parse succeeds and the resulting mapping holds the value of
the later (rightmost) pair — parse_object inserts each parsed pair with
`HashMap::insert` (parser.rs line 121), whose overwrite-on-duplicate
behaviour `insertKV` models; looking up a freshly inserted key always
returns the inserted value; a concrete three-pair document with a
repeated key keeps only the last value for it. -/
theorem claim_C6_duplicate_keys (s t : List Char)
    (hs : ∀ c ∈ s, c ≠ '"' ∧ c ≠ '\\') (ht : ∀ c ∈ t, c ≠ '"' ∧ c ≠ '\\') :
    parseJsonChars ('\x7b' :: '"' :: 'k' :: '"' :: ':' :: '"' ::
        (s ++ ('"' :: ',' :: '"' :: 'k' :: '"' :: ':' :: '"' :: (t ++ ['"', '\x7d'])))) =
      .ok (.object [("k", .string (String.mk t))]) ∧
    (∀ m k v, lookupKV (insertKV m k v) k = some v) ∧
    parse_json_string "\x7b\"a\":1,\"b\":2,\"a\":3\x7d" =
      .ok (.object [("a", .number 3), ("b", .number 2)]) ∧
    lookupKV [("a", JsonValue.number 3), ("b", JsonValue.number 2)] "a" =
      some (.number 3) := by
  refine ⟨?_, fun m k v => lookupKV_insertKV_self m k v, ?_, by simp [lookupKV]⟩
  · have hlen :
        ('\x7b' :: '"' :: 'k' :: '"' :: ':' :: '"' ::
          (s ++ ('"' :: ',' :: '"' :: 'k' :: '"' :: ':' :: '"' ::
            (t ++ ['"', '\x7d'])))).length + 1 =
        s.length + t.length + 10 + 1 + 1 + 1 + 1 + 1 + 1 := by
      simp only [List.length_cons, List.length_append, List.length_nil]
      omega
    have t1 : lexNext ⟨'"' :: 'k' :: '"' :: ':' :: '"' ::
        (s ++ ('"' :: ',' :: '"' :: 'k' :: '"' :: ':' :: '"' :: (t ++ ['"', '\x7d']))), 1⟩ =
        (.ok ⟨.string "k", 1⟩,
         ⟨':' :: '"' :: (s ++ ('"' :: ',' :: '"' :: 'k' :: '"' :: ':' :: '"' ::
            (t ++ ['"', '\x7d']))), 4⟩) := by
      simp +decide [lexNext, skipWhitespace, readString, readStringCore.eq_def]
    have t3 : lexNext ⟨'"' :: (s ++ ('"' :: ',' :: '"' :: 'k' :: '"' :: ':' :: '"' ::
        (t ++ ['"', '\x7d']))), 5⟩ =
        (.ok ⟨.string (String.mk s), 5⟩,
         ⟨',' :: '"' :: 'k' :: '"' :: ':' :: '"' :: (t ++ ['"', '\x7d']),
          5 + s.length + 2⟩) :=
      lexNext_clean_string s _ 5 hs
    have t5 : lexNext ⟨'"' :: 'k' :: '"' :: ':' :: '"' :: (t ++ ['"', '\x7d']),
        5 + s.length + 2 + 1⟩ =
        (.ok ⟨.string "k", 5 + s.length + 2 + 1⟩,
         ⟨':' :: '"' :: (t ++ ['"', '\x7d']), 5 + s.length + 2 + 1 + 3⟩) := by
      simp +decide [lexNext, skipWhitespace, readString, readStringCore.eq_def]
    have t6 : lexNext ⟨'"' :: (t ++ ['"', '\x7d']), 5 + s.length + 2 + 1 + 3 + 1⟩ =
        (.ok ⟨.string (String.mk t), 5 + s.length + 2 + 1 + 3 + 1⟩,
         ⟨['\x7d'], 5 + s.length + 2 + 1 + 3 + 1 + t.length + 2⟩) :=
      lexNext_clean_string t _ _ ht
    unfold parseJsonChars
    rw [hlen]
    simp +decide [parseSingle, parseValue, parseObject, parseObjectLoop, peekToken,
      advanceToken, expectToken, discr, insertKV, t1, t3, t5, t6, lexNext_lbrace,
      lexNext_rbrace, lexNext_comma, lexNext_colon, lexNext_eof]
  · show parseJsonChars ['\x7b', '"', 'a', '"', ':', '1', ',', '"', 'b', '"', ':', '2',
        ',', '"', 'a', '"', ':', '3', '\x7d'] =
      .ok (.object [("a", .number 3), ("b", .number 2)])
    simp +decide [parseJsonChars, parseSingle, parseValue, parseObject, parseObjectLoop,
      peekToken, advanceToken, expectToken, lexNext, skipWhitespace, readString,
      readStringCore, readNumber, numTail, numExp, takeDigits, insertKV, debugFmt,
      discr, mkNumber, digitsToNat]

/-- Witness for C6 at the concrete one-character strings `x` and `y`. -/
theorem claim_C6_duplicate_keys_witness :
    (∀ c ∈ ['x'], c ≠ '"' ∧ c ≠ '\\') ∧
    parseJsonChars ('\x7b' :: '"' :: 'k' :: '"' :: ':' :: '"' ::
        (['x'] ++ ('"' :: ',' :: '"' :: 'k' :: '"' :: ':' :: '"' :: (['y'] ++ ['"', '\x7d'])))) =
      .ok (.object [("k", .string (String.mk ['y']))]) :=
  ⟨by decide, (claim_C6_duplicate_keys ['x'] ['y'] (by decide) (by decide)).1⟩

/-- CLAIM C5.  One pull of the stream iterator ends the sequence (yields
nothing) exactly when the peeked lexeme is `Eof`; any other peeked token
makes the pull parse and yield exactly one value (the result and state of
one parse_value run from the post-peek state); and the three-document
input yields exactly three successful single-key objects in source order
(collecting up to ten items returns just those three). -/
theorem claim_C5_streaming (fuel : Nat) (s : PState) :
    ((streamNext fuel s).1 = none ↔ ∃ p s', peekToken s = (.ok ⟨.eof, p⟩, s')) ∧
    (∀ t s', peekToken s = (.ok t, s') → t.tokenType ≠ .eof →
      streamNext fuel s = (some (parseValue fuel s').1, (parseValue fuel s').2)) ∧
    streamTake 24 10 (initPState "\x7b\"a\":1\x7d\n\x7b\"b\":2\x7d\n\x7b\"c\":3\x7d") =
      [.ok (.object [("a", .number 1)]), .ok (.object [("b", .number 2)]),
       .ok (.object [("c", .number 3)])] := by
  refine ⟨?_, ?_, ?_⟩
  · constructor
    · intro hnone
      rcases hp : peekToken s with ⟨r, s₁⟩
      rw [streamNext, hp] at hnone
      cases r with
      | error e => simp at hnone
      | ok t =>
        obtain ⟨tt, pp⟩ := t
        by_cases ht : tt = .eof
        · subst ht
          exact ⟨pp, s₁, rfl⟩
        · simp [ht] at hnone
    · rintro ⟨p, s', hp⟩
      rw [streamNext, hp]
      simp
  · intro t s' hp hne
    rw [streamNext, hp]
    simp [hne]
  · show streamTake 24 10 ⟨⟨['\x7b', '"', 'a', '"', ':', '1', '\x7d', '\n',
        '\x7b', '"', 'b', '"', ':', '2', '\x7d', '\n',
        '\x7b', '"', 'c', '"', ':', '3', '\x7d'], 0⟩, none, none⟩ =
      [.ok (.object [("a", .number 1)]), .ok (.object [("b", .number 2)]),
       .ok (.object [("c", .number 3)])]
    simp +decide [streamTake, streamNext, parseValue, parseObject, parseObjectLoop,
      peekToken, advanceToken, expectToken, lexNext, skipWhitespace, readString,
      readStringCore, readNumber, numTail, numExp, takeDigits, insertKV, debugFmt,
      discr, mkNumber, digitsToNat]

/-- Witness for C5 at fuel 1 and the empty-input parser state, where the
peeked lexeme is `Eof` and the stream ends at once. -/
theorem claim_C5_streaming_witness :
    ((streamNext 1 (initPState "")).1 = none ↔
      ∃ p s', peekToken (initPState "") = (.ok ⟨.eof, p⟩, s')) :=
  (claim_C5_streaming 1 (initPState "")).1

/-- CLAIM C7, counterexample.  Trailing non-whitespace content after one
complete value does not always produce `UnexpectedToken`: when the
trailing content fails to lex (here `@`), parse_single returns that
lexing error (`InvalidCharacter`) instead. -/
theorem claim_C7_counterexample :
    parse_json_string "1 @" = .error (.invalidCharacter '@' 2) ∧
    (match parse_json_string "1 @" with
     | .error (.unexpectedToken _ _ _) => False
     | _ => True) :=
  ⟨rfl, trivial⟩

/-- CLAIM C7, amended.  parse_single succeeds only when the lexeme
peeked after the parsed value is `Eof`; when that lexeme is a token
other than `Eof`, the result is `UnexpectedToken` with expected
description "end of input" and the position of the trailing lexeme;
when the trailing content fails to lex, the lexing error itself is
returned; the input `1 2` concretely fails expecting end of input at
position 2. -/
theorem claim_C7_eof_required (fuel : Nat) (s : PState) :
    (∀ v s', parseSingle fuel s = (.ok v, s') →
      (parseValue fuel s).1 = .ok v ∧
      ∃ p, peekToken (parseValue fuel s).2 = (.ok ⟨.eof, p⟩, s')) ∧
    (∀ v s₀ t s₁, parseValue fuel s = (.ok v, s₀) → peekToken s₀ = (.ok t, s₁) →
      t.tokenType ≠ .eof →
      parseSingle fuel s =
        (.error (.unexpectedToken "end of input" (debugFmt t.tokenType) t.position), s₁)) ∧
    (∀ v s₀ e s₁, parseValue fuel s = (.ok v, s₀) → peekToken s₀ = (.error e, s₁) →
      parseSingle fuel s = (.error e, s₁)) ∧
    parse_json_string "1 2" =
      .error (.unexpectedToken "end of input" "Number(2.0)" 2) := by
  refine ⟨?_, ?_, ?_, rfl⟩
  · intro v s' h
    rcases hv : parseValue fuel s with ⟨rv, s₀⟩
    cases rv with
    | error e =>
      have hforw : parseSingle fuel s = (.error e, s₀) := by rw [parseSingle, hv]
      rw [hforw] at h
      simp at h
    | ok w =>
      rcases hp : peekToken s₀ with ⟨r₂, s₁⟩
      cases r₂ with
      | error e =>
        have hforw : parseSingle fuel s = (.error e, s₁) := by
          rw [parseSingle, hv]
          simp [hp]
        rw [hforw] at h
        simp at h
      | ok t =>
        obtain ⟨tt, pp⟩ := t
        by_cases ht : tt = .eof
        · subst ht
          have hforw : parseSingle fuel s = (.ok w, s₁) := by
            rw [parseSingle, hv]
            simp [hp]
          rw [hforw] at h
          rw [Prod.ext_iff] at h
          obtain ⟨h1, h2⟩ := h
          simp only at h1 h2
          exact ⟨h1, ⟨pp, by rw [h2]⟩⟩
        · have hforw : parseSingle fuel s =
              (.error (.unexpectedToken "end of input" (debugFmt tt) pp), s₁) := by
            rw [parseSingle, hv]
            simp [hp, ht]
          rw [hforw] at h
          simp at h
  · intro v s₀ t s₁ hv hp hne
    rw [parseSingle, hv]
    simp [hp, hne]
  · intro v s₀ e s₁ hv hp
    rw [parseSingle, hv]
    simp [hp]

/-- Witness for C7 at the input `1 2`: the value 1 parses, the peeked
trailing lexeme is the number 2 at position 2, and parse_single fails
expecting end of input there. -/
theorem claim_C7_eof_required_witness :
    parseSingle 4 (initPState "1 2") =
      (.error (.unexpectedToken "end of input" "Number(2.0)" 2),
       (peekToken (parseValue 4 (initPState "1 2")).2).2) :=
  (claim_C7_eof_required 4 (initPState "1 2")).2.1 (.number 1)
    (parseValue 4 (initPState "1 2")).2 ⟨.number 2, 2⟩
    (peekToken (parseValue 4 (initPState "1 2")).2).2 rfl rfl (by decide)

/-- CLAIM C10.  Once the stream lookahead buffer holds a lexing error,
every pull yields exactly that error again and leaves the whole state
unchanged, so after any number of pulls the iterator still yields the
error and never reports end of sequence; concretely, the first pull on
the input `@` yields `InvalidCharacter` and leaves that error cached in
the lookahead buffer. -/
theorem claim_C10_sticky_error (s : PState) (e : ParseError)
    (h : s.peeked = some (.error e)) (fuel n : Nat) :
    streamIter fuel n s = s ∧
    streamNext fuel s = (some (.error e), s) ∧
    (streamNext 2 (initPState "@")).2.peeked =
      some (.error (.invalidCharacter '@' 0)) ∧
    (streamNext 2 (initPState "@")).1 =
      some (.error (.invalidCharacter '@' 0)) := by
  have hstep : streamNext fuel s = (some (.error e), s) := by
    rw [streamNext]
    simp [peekToken, h]
  refine ⟨?_, hstep, rfl, rfl⟩
  induction n with
  | zero => rfl
  | succ n ih =>
    rw [streamIter, hstep]
    exact ih

/-- Witness for C10 at the post-first-pull state of the stream over `@`,
iterating three further pulls. -/
theorem claim_C10_sticky_error_witness :
    (streamNext 2 (initPState "@")).2.peeked =
      some (.error (.invalidCharacter '@' 0)) ∧
    streamIter 2 3 (streamNext 2 (initPState "@")).2 =
      (streamNext 2 (initPState "@")).2 ∧
    streamNext 2 (streamNext 2 (initPState "@")).2 =
      (some (.error (.invalidCharacter '@' 0)), (streamNext 2 (initPState "@")).2) :=
  ⟨rfl,
   (claim_C10_sticky_error (streamNext 2 (initPState "@")).2
     (.invalidCharacter '@' 0) rfl 2 3).1,
   (claim_C10_sticky_error (streamNext 2 (initPState "@")).2
     (.invalidCharacter '@' 0) rfl 2 3).2.1⟩

/-- Position carried by an error variant, when it has one. -/
def errPos : ParseError → Option Nat
  | .unexpectedEof p => some p
  | .invalidCharacter _ p => some p
  | .invalidNumber p => some p
  | .unterminatedString p => some p
  | .invalidEscape p => some p
  | .unexpectedToken _ _ p => some p
  | .trailingComma p => some p
  | .invalidStructure p => some p
  | .ioError _ => none

/-- The error variants the lexer can produce. -/
def lexErrOK : ParseError → Prop
  | .invalidCharacter _ _ => True
  | .invalidNumber _ => True
  | .unterminatedString _ => True
  | .invalidEscape _ => True
  | _ => False

/-- skip_whitespace advances the position by exactly the characters it
consumes and never moves it backwards. -/
theorem skipWhitespace_mono (l : List Char) (pos : Nat) :
    pos ≤ (skipWhitespace l pos).2 ∧
    (skipWhitespace l pos).2 + (skipWhitespace l pos).1.length = pos + l.length := by
  induction l generalizing pos with
  | nil => simp [skipWhitespace]
  | cons c rest ih =>
    by_cases hc : isJsonWhitespace c
    · have := ih (pos + 1)
      simp only [skipWhitespace, hc, if_true]
      constructor
      · omega
      · simp only [List.length_cons]
        omega
    · simp [skipWhitespace, hc]

/-- The digit loop advances the position by exactly the digits taken. -/
theorem takeDigits_mono (l : List Char) (pos : Nat) :
    pos ≤ (takeDigits l pos).2.2 ∧
    (takeDigits l pos).2.2 + (takeDigits l pos).2.1.length = pos + l.length := by
  induction l generalizing pos with
  | nil => simp [takeDigits]
  | cons c rest ih =>
    by_cases hc : c.isDigit
    · rcases hr : takeDigits rest (pos + 1) with ⟨ds, r, p⟩
      obtain ⟨ha, hb⟩ := ih (pos + 1)
      rw [hr] at ha hb
      simp only at ha hb
      simp only [takeDigits, hc, if_true, hr, List.length_cons]
      omega
    · simp [takeDigits, hc]

/-- The alphabetic-run loop advances the position by exactly the
characters taken. -/
theorem takeAlpha_mono (l : List Char) (pos : Nat) :
    pos ≤ (takeAlpha l pos).2.2 ∧
    (takeAlpha l pos).2.2 + (takeAlpha l pos).2.1.length = pos + l.length := by
  induction l generalizing pos with
  | nil => simp [takeAlpha]
  | cons c rest ih =>
    by_cases hc : c.isAlpha
    · rcases hr : takeAlpha rest (pos + 1) with ⟨ds, r, p⟩
      obtain ⟨ha, hb⟩ := ih (pos + 1)
      rw [hr] at ha hb
      simp only at ha hb
      simp only [takeAlpha, hc, if_true, hr, List.length_cons]
      omega
    · simp [takeAlpha, hc]

/-- The string-reading loop never moves the position backwards, advances
it by exactly the characters it consumes, and fails only with
`UnterminatedString` or `InvalidEscape`, carrying a position between the
string start and the point where reading stopped. -/
theorem readStringCore_mono :
    ∀ n (l : List Char), l.length ≤ n → ∀ (pos sp : Nat) (acc : List Char)
      (r : Except ParseError String) (l' : List Char) (p' : Nat), sp ≤ pos →
      readStringCore l pos sp acc = (r, l', p') →
      pos ≤ p' ∧ p' + l'.length = pos + l.length ∧
      (∀ e, r = .error e →
        ∃ q, (e = .unterminatedString q ∨ e = .invalidEscape q) ∧ sp ≤ q ∧ q ≤ p') := by
  intro n
  induction n with
  | zero =>
    intro l hl pos sp acc r l' p' hsp heq
    have hnil : l = [] := List.eq_nil_of_length_eq_zero (Nat.le_zero.mp hl)
    subst hnil
    rw [readStringCore.eq_def] at heq
    simp only at heq
    cases heq
    refine ⟨le_rfl, by simp, ?_⟩
    intro e he
    injection he with h
    subst h
    exact ⟨sp, Or.inl rfl, le_rfl, hsp⟩
  | succ n ih =>
    intro l hl pos sp acc r l' p' hsp heq
    cases l with
    | nil =>
      rw [readStringCore.eq_def] at heq
      simp only at heq
      cases heq
      refine ⟨le_rfl, by simp, ?_⟩
      intro e he
      injection he with h
      subst h
      exact ⟨sp, Or.inl rfl, le_rfl, hsp⟩
    | cons c rest =>
      rw [readStringCore.eq_def] at heq
      simp only at heq
      simp only [List.length_cons] at hl
      by_cases hb : c = '\\'
      · rw [if_pos hb] at heq
        cases rest with
        | nil =>
          cases heq
          refine ⟨by omega, by simp, ?_⟩
          intro e he
          injection he with h
          subst h
          exact ⟨sp, Or.inl rfl, le_rfl, by omega⟩
        | cons e₂ rest₂ =>
          simp only [List.length_cons] at hl
          simp only at heq
          by_cases hu : e₂ = 'u'
          · subst hu
            simp only [if_neg (by decide : ('u' : Char) ≠ '"'),
              if_neg (by decide : ('u' : Char) ≠ '\\'),
              if_neg (by decide : ('u' : Char) ≠ '/'),
              if_neg (by decide : ('u' : Char) ≠ 'b'),
              if_neg (by decide : ('u' : Char) ≠ 'f'),
              if_neg (by decide : ('u' : Char) ≠ 'n'),
              if_neg (by decide : ('u' : Char) ≠ 'r'),
              if_neg (by decide : ('u' : Char) ≠ 't'),
              if_pos (rfl : ('u' : Char) = 'u')] at heq
            cases rest₂ with
            | nil =>
              simp only at heq
              cases heq
              refine ⟨by omega, by simp, ?_⟩
              intro e he
              injection he with h
              subst h
              exact ⟨pos + 2, Or.inr rfl, by omega, by omega⟩
            | cons h₁ r₁ =>
              simp only [List.length_cons] at hl
              simp only at heq
              by_cases hx1 : hexOk h₁
              · rw [if_pos hx1] at heq
                cases r₁ with
                | nil =>
                  simp only at heq
                  cases heq
                  refine ⟨by omega, by simp, ?_⟩
                  intro e he
                  injection he with h
                  subst h
                  exact ⟨pos + 3, Or.inr rfl, by omega, by omega⟩
                | cons h₂ r₂ =>
                  simp only [List.length_cons] at hl
                  simp only at heq
                  by_cases hx2 : hexOk h₂
                  · rw [if_pos hx2] at heq
                    cases r₂ with
                    | nil =>
                      simp only at heq
                      cases heq
                      refine ⟨by omega, by simp, ?_⟩
                      intro e he
                      injection he with h
                      subst h
                      exact ⟨pos + 4, Or.inr rfl, by omega, by omega⟩
                    | cons h₃ r₃ =>
                      simp only [List.length_cons] at hl
                      simp only at heq
                      by_cases hx3 : hexOk h₃
                      · rw [if_pos hx3] at heq
                        cases r₃ with
                        | nil =>
                          simp only at heq
                          cases heq
                          refine ⟨by omega, by simp, ?_⟩
                          intro e he
                          injection he with h
                          subst h
                          exact ⟨pos + 5, Or.inr rfl, by omega, by omega⟩
                        | cons h₄ r₄ =>
                          simp only [List.length_cons] at hl
                          simp only at heq
                          by_cases hx4 : hexOk h₄
                          · rw [if_pos hx4] at heq
                            by_cases hv : (((hexVal h₁ * 16 + hexVal h₂) * 16 + hexVal h₃) * 16
                                + hexVal h₄).isValidChar
                            · rw [if_pos hv] at heq
                              obtain ⟨ha, hb2, hc2⟩ :=
                                ih r₄ (by omega) (pos + 6) sp _ r l' p' (by omega) heq
                              refine ⟨by omega, ?_, hc2⟩
                              simp only [List.length_cons]
                              omega
                            · rw [if_neg hv] at heq
                              cases heq
                              refine ⟨by omega, ?_, ?_⟩
                              · simp only [List.length_cons]
                                omega
                              · intro e he
                                injection he with h
                                subst h
                                exact ⟨pos + 6, Or.inr rfl, by omega, by omega⟩
                          · rw [if_neg hx4] at heq
                            cases heq
                            refine ⟨by omega, ?_, ?_⟩
                            · simp only [List.length_cons]
                              omega
                            · intro e he
                              injection he with h
                              subst h
                              exact ⟨pos + 6, Or.inr rfl, by omega, by omega⟩
                      · rw [if_neg hx3] at heq
                        cases heq
                        refine ⟨by omega, ?_, ?_⟩
                        · simp only [List.length_cons]
                          omega
                        · intro e he
                          injection he with h
                          subst h
                          exact ⟨pos + 5, Or.inr rfl, by omega, by omega⟩
                  · rw [if_neg hx2] at heq
                    cases heq
                    refine ⟨by omega, ?_, ?_⟩
                    · simp only [List.length_cons]
                      omega
                    · intro e he
                      injection he with h
                      subst h
                      exact ⟨pos + 4, Or.inr rfl, by omega, by omega⟩
              · rw [if_neg hx1] at heq
                cases heq
                refine ⟨by omega, ?_, ?_⟩
                · simp only [List.length_cons]
                  omega
                · intro e he
                  injection he with h
                  subst h
                  exact ⟨pos + 3, Or.inr rfl, by omega, by omega⟩
          · -- simple escapes or invalid escape
            split_ifs at heq with hq1 hq2 hq3 hq4 hq5 hq6 hq7 hq8
            all_goals first
              | (cases heq
                 refine ⟨by omega, ?_, ?_⟩
                 · simp only [List.length_cons]
                   omega
                 · intro e he
                   injection he with h
                   subst h
                   exact ⟨pos + 2, Or.inr rfl, by omega, by omega⟩)
              | (obtain ⟨ha, hb2, hc2⟩ :=
                  ih rest₂ (by omega) (pos + 2) sp _ r l' p' (by omega) heq
                 refine ⟨by omega, ?_, hc2⟩
                 simp only [List.length_cons]
                 omega)
      · rw [if_neg hb] at heq
        by_cases hqc : c = '"'
        · rw [if_pos hqc] at heq
          cases heq
          refine ⟨by omega, ?_, by intro e he; cases he⟩
          simp only [List.length_cons]
          omega
        · rw [if_neg hqc] at heq
          obtain ⟨ha, hb2, hc2⟩ :=
            ih rest (by omega) (pos + 1) sp _ r l' p' (by omega) heq
          refine ⟨by omega, ?_, hc2⟩
          simp only [List.length_cons]
          omega

/-- Digit-tail step used by the exponent and fraction phases: the
takeDigits run followed by the emptiness test advances the position by
exactly the characters consumed, and an empty run is `InvalidNumber` at
the number start. -/
theorem numExpDigits_mono (neg eneg : Bool) (intDs fds input₂ : List Char) (pos₂ sp : Nat)
    (r : Except ParseError Rat) (l' : List Char) (p' : Nat)
    (heq : (match takeDigits input₂ pos₂ with
      | (eds, rest₃, pos₃) =>
        if eds.isEmpty then ((.error (.invalidNumber sp) : Except ParseError Rat), rest₃, pos₃)
        else (.ok (mkNumber neg intDs fds eneg eds), rest₃, pos₃)) = (r, l', p')) :
    pos₂ ≤ p' ∧ p' + l'.length = pos₂ + input₂.length ∧
    (∀ e, r = .error e → e = .invalidNumber sp) := by
  rcases htd : takeDigits input₂ pos₂ with ⟨ds, r₂, p₂⟩
  obtain ⟨ha, hb⟩ := takeDigits_mono input₂ pos₂
  rw [htd] at ha hb heq
  simp only at ha hb heq
  split_ifs at heq with hde
  · cases heq
    exact ⟨by omega, by omega, fun e he => by injection he with h; rw [h]⟩
  · cases heq
    exact ⟨by omega, by omega, fun e he => by cases he⟩

/-- The exponent phase advances the position by exactly the characters
it consumes and fails only with `InvalidNumber` at the number start. -/
theorem numExp_mono (neg : Bool) (intDs fds input : List Char) (pos sp : Nat)
    (r : Except ParseError Rat) (l' : List Char) (p' : Nat)
    (heq : numExp neg intDs fds input pos sp = (r, l', p')) :
    pos ≤ p' ∧ p' + l'.length = pos + input.length ∧
    (∀ e, r = .error e → e = .invalidNumber sp) := by
  rw [numExp.eq_def] at heq
  cases input with
  | nil =>
    simp only at heq
    cases heq
    exact ⟨le_rfl, by simp, fun e he => by cases he⟩
  | cons c rest =>
    simp only at heq
    by_cases hce : (c = 'e' || c = 'E') = true
    · rw [if_pos hce] at heq
      cases rest with
      | nil =>
        simp only at heq
        obtain ⟨ha, hb, hc⟩ := numExpDigits_mono neg false intDs fds [] (pos + 1) sp r l' p' heq
        exact ⟨by omega, by simp only [List.length_cons, List.length_nil] at hb ⊢; omega, hc⟩
      | cons c₂ rest₂ =>
        by_cases h₂ : c₂ = '+'
        · subst h₂
          simp only at heq
          obtain ⟨ha, hb, hc⟩ :=
            numExpDigits_mono neg false intDs fds rest₂ (pos + 2) sp r l' p' heq
          exact ⟨by omega, by simp only [List.length_cons] at hb ⊢; omega, hc⟩
        · by_cases h₃ : c₂ = '-'
          · subst h₃
            simp only at heq
            obtain ⟨ha, hb, hc⟩ :=
              numExpDigits_mono neg true intDs fds rest₂ (pos + 2) sp r l' p' heq
            exact ⟨by omega, by simp only [List.length_cons] at hb ⊢; omega, hc⟩
          · rw [show (match c₂ :: rest₂ with
                | '+' :: r => (false, r, pos + 2)
                | '-' :: r => (true, r, pos + 2)
                | r => (false, r, pos + 1)) = (false, c₂ :: rest₂, pos + 1) from by
                simp [h₂, h₃]] at heq
            simp only at heq
            obtain ⟨ha, hb, hc⟩ :=
              numExpDigits_mono neg false intDs fds (c₂ :: rest₂) (pos + 1) sp r l' p' heq
            exact ⟨by omega, by simp only [List.length_cons] at hb ⊢; omega, hc⟩
    · rw [if_neg hce] at heq
      cases heq
      exact ⟨le_rfl, by simp, fun e he => by cases he⟩

/-- The fraction phase advances the position by exactly the characters
it consumes and fails only with `InvalidNumber` at the number start. -/
theorem numTail_mono (neg : Bool) (intDs input : List Char) (pos sp : Nat)
    (r : Except ParseError Rat) (l' : List Char) (p' : Nat)
    (heq : numTail neg intDs input pos sp = (r, l', p')) :
    pos ≤ p' ∧ p' + l'.length = pos + input.length ∧
    (∀ e, r = .error e → e = .invalidNumber sp) := by
  rw [numTail.eq_def] at heq
  split at heq
  · rename_i rest
    rcases htd : takeDigits rest (pos + 1) with ⟨fds, r₂, p₂⟩
    obtain ⟨ha, hb⟩ := takeDigits_mono rest (pos + 1)
    rw [htd] at ha hb heq
    simp only at ha hb heq
    split_ifs at heq with hde
    · cases heq
      refine ⟨by omega, ?_, fun e he => by injection he with h; rw [h]⟩
      simp only [List.length_cons]
      omega
    · obtain ⟨ha₂, hb₂, hc₂⟩ := numExp_mono neg intDs fds r₂ p₂ sp r l' p' heq
      refine ⟨by omega, ?_, hc₂⟩
      simp only [List.length_cons]
      omega
  · obtain ⟨ha, hb, hc⟩ := numExp_mono neg intDs [] input pos sp r l' p' heq
    exact ⟨ha, hb, hc⟩

/-- read_number never moves the position backwards, advances it by
exactly the characters it consumes, and fails only with `InvalidNumber`
at the position where the number started. -/
theorem readNumber_mono (l : List Char) (pos : Nat)
    (r : Except ParseError Rat) (l' : List Char) (p' : Nat)
    (heq : readNumber l pos = (r, l', p')) :
    pos ≤ p' ∧ p' + l'.length = pos + l.length ∧
    (∀ e, r = .error e → e = .invalidNumber pos) := by
  rw [readNumber.eq_def] at heq
  simp only at heq
  cases l with
  | nil =>
    simp only at heq
    cases heq
    exact ⟨le_rfl, by simp, fun e he => by injection he with h; rw [h]⟩
  | cons c₀ rest₀ =>
    by_cases hminus : c₀ = '-'
    · subst hminus
      simp only at heq
      cases rest₀ with
      | nil =>
        simp only at heq
        cases heq
        exact ⟨by omega, by simp, fun e he => by injection he with h; rw [h]⟩
      | cons c rest₂ =>
        simp only at heq
        by_cases h0 : c = '0'
        · rw [if_pos h0] at heq
          obtain ⟨ha, hb, hc⟩ := numTail_mono true ['0'] rest₂ (pos + 1 + 1) pos r l' p' heq
          refine ⟨by omega, ?_, hc⟩
          simp only [List.length_cons]
          omega
        · rw [if_neg h0] at heq
          by_cases hd : c.isDigit
          · rw [if_pos hd] at heq
            rcases htd : takeDigits (c :: rest₂) (pos + 1) with ⟨ds, r₃, p₃⟩
            obtain ⟨ha, hb⟩ := takeDigits_mono (c :: rest₂) (pos + 1)
            rw [htd] at ha hb heq
            simp only at ha hb heq
            obtain ⟨ha₂, hb₂, hc₂⟩ := numTail_mono true ds r₃ p₃ pos r l' p' heq
            refine ⟨by omega, ?_, hc₂⟩
            simp only [List.length_cons] at hb ⊢
            omega
          · rw [if_neg hd] at heq
            cases heq
            refine ⟨by omega, ?_, fun e he => by injection he with h; rw [h]⟩
            simp only [List.length_cons]
            omega
    · rw [show (match c₀ :: rest₀ with
          | '-' :: rest => (true, rest, pos + 1)
          | _ => (false, c₀ :: rest₀, pos)) = (false, c₀ :: rest₀, pos) from by
          simp [hminus]] at heq
      simp only at heq
      by_cases h0 : c₀ = '0'
      · rw [if_pos h0] at heq
        obtain ⟨ha, hb, hc⟩ := numTail_mono false ['0'] rest₀ (pos + 1) pos r l' p' heq
        refine ⟨by omega, ?_, hc⟩
        simp only [List.length_cons]
        omega
      · rw [if_neg h0] at heq
        by_cases hd : c₀.isDigit
        · rw [if_pos hd] at heq
          rcases htd : takeDigits (c₀ :: rest₀) pos with ⟨ds, r₃, p₃⟩
          obtain ⟨ha, hb⟩ := takeDigits_mono (c₀ :: rest₀) pos
          rw [htd] at ha hb heq
          simp only at ha hb heq
          obtain ⟨ha₂, hb₂, hc₂⟩ := numTail_mono false ds r₃ p₃ pos r l' p' heq
          refine ⟨by omega, ?_, hc₂⟩
          simp only [List.length_cons] at hb ⊢
          omega
        · rw [if_neg hd] at heq
          cases heq
          exact ⟨le_rfl, by simp, fun e he => by injection he with h; rw [h]⟩

/-- One lexer step never moves the position backwards, advances it by
exactly the characters it consumes, emits tokens whose position lies
between the pre- and post-state positions, and fails only with the four
lexical error variants, always carrying a position in that same range. -/
theorem lexNext_mono (st : LexState) (r : Except ParseError Token) (st' : LexState)
    (heq : lexNext st = (r, st')) :
    st.pos ≤ st'.pos ∧ st'.pos + st'.input.length = st.pos + st.input.length ∧
    (∀ t, r = .ok t → st.pos ≤ t.position ∧ t.position ≤ st'.pos) ∧
    (∀ e, r = .error e → lexErrOK e ∧
      ∀ q, errPos e = some q → st.pos ≤ q ∧ q ≤ st'.pos) := by
  obtain ⟨input₀, pos₀⟩ := st
  rw [lexNext] at heq
  rcases hsw : skipWhitespace input₀ pos₀ with ⟨l₁, pos₁⟩
  obtain ⟨hswa, hswb⟩ := skipWhitespace_mono input₀ pos₀
  rw [hsw] at hswa hswb heq
  simp only at hswa hswb heq
  cases l₁ with
  | nil =>
    simp only at heq
    cases heq
    refine ⟨by first | omega | (simp only [List.length_cons, List.length_nil]; omega), by simp only [List.length_nil] at hswb ⊢; omega, ?_,
      fun e he => by exact Except.noConfusion he⟩
    intro t ht
    injection ht with h
    subst h
    simp only
    omega
  | cons c rest =>
    simp only [List.length_cons] at hswb
    simp only at heq
    by_cases hc1 : c = '\x7b'
    · rw [if_pos hc1] at heq
      cases heq
      refine ⟨by first | omega | (simp only [List.length_cons, List.length_nil]; omega), by simp only [List.length_cons]; omega, ?_, fun e he => by exact Except.noConfusion he⟩
      intro t ht
      injection ht with h
      subst h
      simp only
      omega
    · rw [if_neg hc1] at heq
      by_cases hc2 : c = '\x7d'
      · rw [if_pos hc2] at heq
        cases heq
        refine ⟨by first | omega | (simp only [List.length_cons, List.length_nil]; omega), by simp only [List.length_cons]; omega, ?_, fun e he => by exact Except.noConfusion he⟩
        intro t ht
        injection ht with h
        subst h
        simp only
        omega
      · rw [if_neg hc2] at heq
        by_cases hc3 : c = '['
        · rw [if_pos hc3] at heq
          cases heq
          refine ⟨by first | omega | (simp only [List.length_cons, List.length_nil]; omega), by simp only [List.length_cons]; omega, ?_,
            fun e he => by exact Except.noConfusion he⟩
          intro t ht
          injection ht with h
          subst h
          simp only
          omega
        · rw [if_neg hc3] at heq
          by_cases hc4 : c = ']'
          · rw [if_pos hc4] at heq
            cases heq
            refine ⟨by first | omega | (simp only [List.length_cons, List.length_nil]; omega), by simp only [List.length_cons]; omega, ?_,
              fun e he => by exact Except.noConfusion he⟩
            intro t ht
            injection ht with h
            subst h
            simp only
            omega
          · rw [if_neg hc4] at heq
            by_cases hc5 : c = ','
            · rw [if_pos hc5] at heq
              cases heq
              refine ⟨by first | omega | (simp only [List.length_cons, List.length_nil]; omega), by simp only [List.length_cons]; omega, ?_,
                fun e he => by exact Except.noConfusion he⟩
              intro t ht
              injection ht with h
              subst h
              simp only
              omega
            · rw [if_neg hc5] at heq
              by_cases hc6 : c = ':'
              · rw [if_pos hc6] at heq
                cases heq
                refine ⟨by first | omega | (simp only [List.length_cons, List.length_nil]; omega), by simp only [List.length_cons]; omega, ?_,
                  fun e he => by exact Except.noConfusion he⟩
                intro t ht
                injection ht with h
                subst h
                simp only
                omega
              · rw [if_neg hc6] at heq
                by_cases hc7 : c = '"'
                · rw [if_pos hc7] at heq
                  subst hc7
                  have hrs : readString ('"' :: rest) pos₁ =
                      readStringCore rest (pos₁ + 1) pos₁ [] := rfl
                  rw [hrs] at heq
                  rcases hrc : readStringCore rest (pos₁ + 1) pos₁ [] with ⟨rr, l₂, p₂⟩
                  obtain ⟨hra, hrb, hrerr⟩ := readStringCore_mono rest.length rest le_rfl
                    (pos₁ + 1) pos₁ [] rr l₂ p₂ (by omega) hrc
                  rw [hrc] at heq
                  cases rr with
                  | ok sv =>
                    simp only at heq
                    cases heq
                    refine ⟨by first | omega | (simp only [List.length_cons, List.length_nil]; omega), by first | omega | (simp only [List.length_cons, List.length_nil]; omega), ?_, fun e he => by exact Except.noConfusion he⟩
                    intro t ht
                    injection ht with h
                    subst h
                    simp only
                    omega
                  | error e =>
                    simp only at heq
                    cases heq
                    refine ⟨by first | omega | (simp only [List.length_cons, List.length_nil]; omega), by first | omega | (simp only [List.length_cons, List.length_nil]; omega), fun t ht => by exact Except.noConfusion ht, ?_⟩
                    intro e' he'
                    injection he' with h
                    subst h
                    obtain ⟨q, hqor, hq1, hq2⟩ := hrerr e rfl
                    rcases hqor with hq | hq
                    · subst hq
                      exact ⟨trivial, fun q' hq' => by
                        injection hq' with h'; subst h'; exact ⟨by first | omega | (simp only [List.length_cons, List.length_nil]; omega), by first | omega | (simp only [List.length_cons, List.length_nil]; omega)⟩⟩
                    · subst hq
                      exact ⟨trivial, fun q' hq' => by
                        injection hq' with h'; subst h'; exact ⟨by first | omega | (simp only [List.length_cons, List.length_nil]; omega), by first | omega | (simp only [List.length_cons, List.length_nil]; omega)⟩⟩
                · rw [if_neg hc7] at heq
                  by_cases hc8 : (c = '-' || c.isDigit) = true
                  · rw [if_pos hc8] at heq
                    rcases hrn : readNumber (c :: rest) pos₁ with ⟨rr, l₂, p₂⟩
                    obtain ⟨hra, hrb, hrerr⟩ := readNumber_mono (c :: rest) pos₁ rr l₂ p₂ hrn
                    simp only [List.length_cons] at hrb
                    rw [hrn] at heq
                    cases rr with
                    | ok nv =>
                      simp only at heq
                      cases heq
                      refine ⟨by first | omega | (simp only [List.length_cons, List.length_nil]; omega), by first | omega | (simp only [List.length_cons, List.length_nil]; omega), ?_, fun e he => by exact Except.noConfusion he⟩
                      intro t ht
                      injection ht with h
                      subst h
                      simp only
                      omega
                    | error e =>
                      simp only at heq
                      cases heq
                      refine ⟨by first | omega | (simp only [List.length_cons, List.length_nil]; omega), by first | omega | (simp only [List.length_cons, List.length_nil]; omega), fun t ht => by exact Except.noConfusion ht, ?_⟩
                      intro e' he'
                      injection he' with h
                      subst h
                      rw [hrerr e rfl]
                      exact ⟨trivial, fun q' hq' => by
                        injection hq' with h'; subst h'; exact ⟨by first | omega | (simp only [List.length_cons, List.length_nil]; omega), by first | omega | (simp only [List.length_cons, List.length_nil]; omega)⟩⟩
                  · rw [if_neg hc8] at heq
                    by_cases hc9 : c.isAlpha
                    · rw [if_pos hc9] at heq
                      rcases hta : takeAlpha (c :: rest) pos₁ with ⟨lit, l₂, p₂⟩
                      obtain ⟨hra, hrb⟩ := takeAlpha_mono (c :: rest) pos₁
                      rw [hta] at hra hrb heq
                      simp only [List.length_cons] at hrb
                      simp only at hra hrb heq
                      by_cases ht1 : String.mk lit = "true"
                      · rw [if_pos ht1] at heq
                        cases heq
                        refine ⟨by first | omega | (simp only [List.length_cons, List.length_nil]; omega), by first | omega | (simp only [List.length_cons, List.length_nil]; omega), ?_, fun e he => by exact Except.noConfusion he⟩
                        intro t ht
                        injection ht with h
                        subst h
                        simp only
                        omega
                      · rw [if_neg ht1] at heq
                        by_cases ht2 : String.mk lit = "false"
                        · rw [if_pos ht2] at heq
                          cases heq
                          refine ⟨by first | omega | (simp only [List.length_cons, List.length_nil]; omega), by first | omega | (simp only [List.length_cons, List.length_nil]; omega), ?_,
                            fun e he => by exact Except.noConfusion he⟩
                          intro t ht
                          injection ht with h
                          subst h
                          simp only
                          omega
                        · rw [if_neg ht2] at heq
                          by_cases ht3 : String.mk lit = "null"
                          · rw [if_pos ht3] at heq
                            cases heq
                            refine ⟨by first | omega | (simp only [List.length_cons, List.length_nil]; omega), by first | omega | (simp only [List.length_cons, List.length_nil]; omega), ?_,
                              fun e he => by exact Except.noConfusion he⟩
                            intro t ht
                            injection ht with h
                            subst h
                            simp only
                            omega
                          · rw [if_neg ht3] at heq
                            cases heq
                            refine ⟨by first | omega | (simp only [List.length_cons, List.length_nil]; omega), by first | omega | (simp only [List.length_cons, List.length_nil]; omega),
                              fun t ht => by exact Except.noConfusion ht, ?_⟩
                            intro e' he'
                            injection he' with h
                            subst h
                            exact ⟨trivial, fun q' hq' => by
                              injection hq' with h'; subst h'
                              exact ⟨by first | omega | (simp only [List.length_cons, List.length_nil]; omega), by first | omega | (simp only [List.length_cons, List.length_nil]; omega)⟩⟩
                    · rw [if_neg hc9] at heq
                      cases heq
                      refine ⟨by first | omega | (simp only [List.length_cons, List.length_nil]; omega), by simp only [List.length_cons]; omega,
                        fun t ht => by exact Except.noConfusion ht, ?_⟩
                      intro e' he'
                      injection he' with h
                      subst h
                      exact ⟨trivial, fun q' hq' => by
                        injection hq' with h'; subst h'; exact ⟨by first | omega | (simp only [List.length_cons, List.length_nil]; omega), by first | omega | (simp only [List.length_cons, List.length_nil]; omega)⟩⟩

/-- CLAIM C8.  Lexeme and error positions are absolute character counts:
one lexer step never decreases the position, moves it by exactly the
number of characters consumed (so, starting from zero, the position is
the count of characters consumed, one per character however many bytes
it occupies), and every token or localized error it emits carries a
position between the pre- and post-step positions — hence positions are
monotone across the whole parse; concretely, the document containing the
multi-byte character 日 reports its trailing comma at character position
5, not a byte offset. -/
theorem claim_C8_positions (st : LexState) (r : Except ParseError Token) (st' : LexState)
    (heq : lexNext st = (r, st')) :
    st.pos ≤ st'.pos ∧
    st'.pos + st'.input.length = st.pos + st.input.length ∧
    (∀ t, r = .ok t → st.pos ≤ t.position ∧ t.position ≤ st'.pos) ∧
    (∀ e q, r = .error e → errPos e = some q → st.pos ≤ q ∧ q ≤ st'.pos) ∧
    parse_json_string "[\"日\",]" = .error (.trailingComma 5) := by
  obtain ⟨h1, h2, h3, h4⟩ := lexNext_mono st r st' heq
  exact ⟨h1, h2, h3, fun e q he hq => (h4 e he).2 q hq, rfl⟩

/-- Witness for C8 at the one-character input `1`, whose single lexer
step emits the number token at position 0 and stops at position 1. -/
theorem claim_C8_positions_witness :
    (LexState.mk ['1'] 0).pos ≤ (LexState.mk [] 1).pos ∧
    (LexState.mk [] 1).pos + (LexState.mk [] 1).input.length =
      (LexState.mk ['1'] 0).pos + (LexState.mk ['1'] 0).input.length ∧
    (∀ t, (Except.ok ⟨TokenType.number 1, 0⟩ : Except ParseError Token) = .ok t →
      (LexState.mk ['1'] 0).pos ≤ t.position ∧ t.position ≤ (LexState.mk [] 1).pos) ∧
    (∀ e q, (Except.ok ⟨TokenType.number 1, 0⟩ : Except ParseError Token) = .error e →
      errPos e = some q → (LexState.mk ['1'] 0).pos ≤ q ∧ q ≤ (LexState.mk [] 1).pos) ∧
    parse_json_string "[\"日\",]" = .error (.trailingComma 5) :=
  claim_C8_positions ⟨['1'], 0⟩ (.ok ⟨.number 1, 0⟩) ⟨[], 1⟩ rfl

/-- The error variants the claim C9 says are never produced are absent:
anything except `UnexpectedEof` and `InvalidStructure`. -/
def goodErr : ParseError → Prop
  | .unexpectedEof _ => False
  | .invalidStructure _ => False
  | _ => True

/-- A parser state whose lookahead buffer, if it caches an error, caches
a good one. -/
def goodPeek (s : PState) : Prop :=
  ∀ e, s.peeked = some (.error e) → goodErr e

/-- A result-state pair whose error, if any, is good, and whose state
has a good lookahead buffer. -/
def resGood (rs : (Except ParseError JsonValue) × PState) : Prop :=
  (∀ e, rs.1 = .error e → goodErr e) ∧ goodPeek rs.2

/-- Lexer errors are good. -/
theorem lexErrOK_good (e : ParseError) (h : lexErrOK e) : goodErr e := by
  cases e <;> simp_all [lexErrOK, goodErr]

/-- peek_token yields good errors and preserves lookahead goodness. -/
theorem peekToken_good (s : PState) (hs : goodPeek s) :
    (∀ e, (peekToken s).1 = .error e → goodErr e) ∧ goodPeek (peekToken s).2 := by
  rcases hpk : s.peeked with - | r
  · rcases hlx : lexNext s.lex with ⟨r, l⟩
    have hred : peekToken s = (r, { s with lex := l, peeked := some r }) := by
      rw [peekToken, hpk, hlx]
    rw [hred]
    obtain ⟨-, -, -, herr⟩ := lexNext_mono s.lex r l hlx
    constructor
    · intro e he
      simp only at he
      exact lexErrOK_good e (herr e he).1
    · intro e he
      simp only at he
      injection he with h
      exact lexErrOK_good e (herr e h).1
  · have hred : peekToken s = (r, s) := by rw [peekToken, hpk]
    rw [hred]
    constructor
    · intro e he
      simp only at he
      exact hs e (by rw [hpk, he])
    · intro e he
      exact hs e he

/-- advance_token yields good errors and preserves lookahead goodness. -/
theorem advanceToken_good (s : PState) (hs : goodPeek s) :
    (∀ e, (advanceToken s).1 = .error e → goodErr e) ∧ goodPeek (advanceToken s).2 := by
  rcases hpk : s.peeked with - | r
  · rcases hlx : lexNext s.lex with ⟨r, l⟩
    obtain ⟨-, -, -, herr⟩ := lexNext_mono s.lex r l hlx
    cases r with
    | ok t =>
      have hred : advanceToken s = (.ok t, { s with lex := l, current := some t }) := by
        rw [advanceToken, hpk, hlx]
      rw [hred]
      constructor
      · intro e he
        simp only at he
        exact Except.noConfusion he
      · intro e he
        simp only at he
        exact hs e he
    | error e₀ =>
      have hred : advanceToken s = (.error e₀, { s with lex := l }) := by
        rw [advanceToken, hpk, hlx]
      rw [hred]
      constructor
      · intro e he
        simp only at he
        injection he with h
        subst h
        exact lexErrOK_good e₀ (herr e₀ rfl).1
      · intro e he
        simp only at he
        exact hs e he
  · cases r with
    | ok t =>
      have hred : advanceToken s = (.ok t, { s with peeked := none, current := some t }) := by
        rw [advanceToken, hpk]
      rw [hred]
      constructor
      · intro e he
        simp only at he
        exact Except.noConfusion he
      · intro e he
        simp only at he
        exact Option.noConfusion he
    | error e₀ =>
      have hred : advanceToken s = (.error e₀, { s with peeked := none }) := by
        rw [advanceToken, hpk]
      rw [hred]
      constructor
      · intro e he
        simp only at he
        injection he with h
        subst h
        exact hs e₀ (by rw [hpk])
      · intro e he
        simp only at he
        exact Option.noConfusion he

/-- expect_token yields good errors and preserves lookahead goodness. -/
theorem expectToken_good (expected : TokenType) (s : PState) (hs : goodPeek s) :
    (∀ e, (expectToken expected s).1 = .error e → goodErr e) ∧
    goodPeek (expectToken expected s).2 := by
  obtain ⟨hadvr, hadvs⟩ := advanceToken_good s hs
  rw [expectToken]
  rcases hadv : advanceToken s with ⟨r, s₁⟩
  rw [hadv] at hadvr hadvs
  simp only at hadvr hadvs
  cases r with
  | error e₀ =>
    simp only
    exact ⟨fun e he => by injection he with h; subst h; exact hadvr e₀ rfl, hadvs⟩
  | ok t =>
    simp only
    by_cases hd : discr t.tokenType = discr expected
    · rw [if_pos hd]
      exact ⟨fun e he => Except.noConfusion he, hadvs⟩
    · rw [if_neg hd]
      exact ⟨fun e he => by injection he with h; subst h; exact trivial, hadvs⟩

/-- A constructed good error with a good state is a good result. -/
theorem resGood_err (e : ParseError) (s : PState) (he : goodErr e) (hs : goodPeek s) :
    resGood (.error e, s) :=
  ⟨fun e' h => by injection h with h'; subst h'; exact he, hs⟩

/-- A success with a good state is a good result. -/
theorem resGood_ok (v : JsonValue) (s : PState) (hs : goodPeek s) : resGood (.ok v, s) :=
  ⟨fun _ h => Except.noConfusion h, hs⟩

/-- Every result of the five recursive-descent routines carries only
good errors (never `UnexpectedEof` or `InvalidStructure`) and leaves a
good lookahead buffer, provided the buffer was good on entry. -/
theorem parser_good (fuel : Nat) :
    (∀ s, goodPeek s → resGood (parseValue fuel s)) ∧
    (∀ s, goodPeek s → resGood (parseObject fuel s)) ∧
    (∀ obj s, goodPeek s → resGood (parseObjectLoop fuel obj s)) ∧
    (∀ s, goodPeek s → resGood (parseArray fuel s)) ∧
    (∀ arr s, goodPeek s → resGood (parseArrayLoop fuel arr s)) := by
  induction fuel with
  | zero =>
    refine ⟨fun s hs => ?_, fun s hs => ?_, fun obj s hs => ?_, fun s hs => ?_,
      fun arr s hs => ?_⟩
    · rw [parseValue]
      exact resGood_err _ s trivial hs
    · rw [parseObject]
      exact resGood_err _ s trivial hs
    · rw [parseObjectLoop]
      exact resGood_err _ s trivial hs
    · rw [parseArray]
      exact resGood_err _ s trivial hs
    · rw [parseArrayLoop]
      exact resGood_err _ s trivial hs
  | succ n ih =>
    obtain ⟨ihV, ihO, ihOL, ihA, ihAL⟩ := ih
    refine ⟨fun s hs => ?_, fun s hs => ?_, fun obj s hs => ?_, fun s hs => ?_,
      fun arr s hs => ?_⟩
    · -- parseValue
      rw [parseValue]
      rcases hpk : peekToken s with ⟨r, s₁⟩
      obtain ⟨hpr, hps⟩ := peekToken_good s hs
      rw [hpk] at hpr hps
      simp only at hpr hps
      simp only
      cases r with
      | error e => exact resGood_err e s₁ (hpr e rfl) hps
      | ok token =>
        simp only
        cases htt : token.tokenType
        case leftBrace =>
          exact ihO s₁ hps
        case leftBracket =>
          exact ihA s₁ hps
        case string sv =>
          simp only
          rcases hadv : advanceToken s₁ with ⟨r₂, s₂⟩
          obtain ⟨hadr, hads⟩ := advanceToken_good s₁ hps
          rw [hadv] at hadr hads
          simp only at hadr hads
          cases r₂ with
          | error e => exact resGood_err e s₂ (hadr e rfl) hads
          | ok t =>
            simp only
            split
            · exact resGood_ok _ s₂ hads
            · exact resGood_err _ s₂ trivial hads
        case number nv =>
          simp only
          rcases hadv : advanceToken s₁ with ⟨r₂, s₂⟩
          obtain ⟨hadr, hads⟩ := advanceToken_good s₁ hps
          rw [hadv] at hadr hads
          simp only at hadr hads
          cases r₂ with
          | error e => exact resGood_err e s₂ (hadr e rfl) hads
          | ok t =>
            simp only
            split
            · exact resGood_ok _ s₂ hads
            · exact resGood_err _ s₂ trivial hads
        case boolean bv =>
          simp only
          rcases hadv : advanceToken s₁ with ⟨r₂, s₂⟩
          obtain ⟨hadr, hads⟩ := advanceToken_good s₁ hps
          rw [hadv] at hadr hads
          simp only at hadr hads
          cases r₂ with
          | error e => exact resGood_err e s₂ (hadr e rfl) hads
          | ok t =>
            simp only
            split
            · exact resGood_ok _ s₂ hads
            · exact resGood_err _ s₂ trivial hads
        case null =>
          simp only
          rcases hadv : advanceToken s₁ with ⟨r₂, s₂⟩
          obtain ⟨hadr, hads⟩ := advanceToken_good s₁ hps
          rw [hadv] at hadr hads
          simp only at hadr hads
          cases r₂ with
          | error e => exact resGood_err e s₂ (hadr e rfl) hads
          | ok t => exact resGood_ok _ s₂ hads
        case rightBrace =>
          exact resGood_err _ s₁ trivial hps
        case rightBracket =>
          exact resGood_err _ s₁ trivial hps
        case comma =>
          exact resGood_err _ s₁ trivial hps
        case colon =>
          exact resGood_err _ s₁ trivial hps
        case eof =>
          exact resGood_err _ s₁ trivial hps
    · -- parseObject
      rw [parseObject]
      rcases hex : expectToken .leftBrace s with ⟨r, s₁⟩
      obtain ⟨hexr, hexs⟩ := expectToken_good .leftBrace s hs
      rw [hex] at hexr hexs
      simp only at hexr hexs
      simp only
      cases r with
      | error e => exact resGood_err e s₁ (hexr e rfl) hexs
      | ok t =>
        simp only
        rcases hpk : peekToken s₁ with ⟨r₂, s₂⟩
        obtain ⟨hpr, hps⟩ := peekToken_good s₁ hexs
        rw [hpk] at hpr hps
        simp only at hpr hps
        cases r₂ with
        | error e => exact ihOL [] s₂ hps
        | ok t₂ =>
          simp only
          by_cases hrb : t₂.tokenType = .rightBrace
          · rw [if_pos hrb]
            rcases hadv : advanceToken s₂ with ⟨r₃, s₃⟩
            obtain ⟨hadr, hads⟩ := advanceToken_good s₂ hps
            rw [hadv] at hadr hads
            simp only at hadr hads
            cases r₃ with
            | error e => exact resGood_err e s₃ (hadr e rfl) hads
            | ok t₃ => exact resGood_ok _ s₃ hads
          · rw [if_neg hrb]
            exact ihOL [] s₂ hps
    · -- parseObjectLoop
      rw [parseObjectLoop]
      rcases hex : expectToken (.string "") s with ⟨r, s₁⟩
      obtain ⟨hexr, hexs⟩ := expectToken_good (.string "") s hs
      rw [hex] at hexr hexs
      simp only at hexr hexs
      simp only
      cases r with
      | error e => exact resGood_err e s₁ (hexr e rfl) hexs
      | ok keyTok =>
        simp only
        cases hkt : keyTok.tokenType
        case leftBrace =>
          exact resGood_err _ s₁ trivial hexs
        case rightBrace =>
          exact resGood_err _ s₁ trivial hexs
        case leftBracket =>
          exact resGood_err _ s₁ trivial hexs
        case rightBracket =>
          exact resGood_err _ s₁ trivial hexs
        case comma =>
          exact resGood_err _ s₁ trivial hexs
        case colon =>
          exact resGood_err _ s₁ trivial hexs
        case number nv =>
          exact resGood_err _ s₁ trivial hexs
        case boolean bv =>
          exact resGood_err _ s₁ trivial hexs
        case null =>
          exact resGood_err _ s₁ trivial hexs
        case eof =>
          exact resGood_err _ s₁ trivial hexs
        case string key =>
          simp only
          rcases hcol : expectToken .colon s₁ with ⟨r₂, s₂⟩
          obtain ⟨hcr, hcs⟩ := expectToken_good .colon s₁ hexs
          rw [hcol] at hcr hcs
          simp only at hcr hcs
          cases r₂ with
          | error e => exact resGood_err e s₂ (hcr e rfl) hcs
          | ok t₂ =>
            simp only
            rcases hv : parseValue n s₂ with ⟨r₃, s₃⟩
            obtain ⟨hvr, hvs⟩ := ihV s₂ hcs
            rw [hv] at hvr hvs
            simp only at hvr hvs
            cases r₃ with
            | error e => exact resGood_err e s₃ (hvr e rfl) hvs
            | ok v =>
              simp only
              rcases hpk : peekToken s₃ with ⟨r₄, s₄⟩
              obtain ⟨hpr, hps⟩ := peekToken_good s₃ hvs
              rw [hpk] at hpr hps
              simp only at hpr hps
              cases r₄ with
              | error e => exact resGood_err e s₄ (hpr e rfl) hps
              | ok sep =>
                simp only
                cases hst : sep.tokenType
                case leftBrace =>
                  exact resGood_err _ s₄ trivial hps
                case leftBracket =>
                  exact resGood_err _ s₄ trivial hps
                case rightBracket =>
                  exact resGood_err _ s₄ trivial hps
                case colon =>
                  exact resGood_err _ s₄ trivial hps
                case string sv2 =>
                  exact resGood_err _ s₄ trivial hps
                case number nv2 =>
                  exact resGood_err _ s₄ trivial hps
                case boolean bv2 =>
                  exact resGood_err _ s₄ trivial hps
                case null =>
                  exact resGood_err _ s₄ trivial hps
                case eof =>
                  exact resGood_err _ s₄ trivial hps
                case rightBrace =>
                  simp only
                  rcases hadv : advanceToken s₄ with ⟨r₅, s₅⟩
                  obtain ⟨hadr, hads⟩ := advanceToken_good s₄ hps
                  rw [hadv] at hadr hads
                  simp only at hadr hads
                  cases r₅ with
                  | error e => exact resGood_err e s₅ (hadr e rfl) hads
                  | ok t₅ => exact resGood_ok _ s₅ hads
                case comma =>
                  simp only
                  rcases hadv : advanceToken s₄ with ⟨r₅, s₅⟩
                  obtain ⟨hadr, hads⟩ := advanceToken_good s₄ hps
                  rw [hadv] at hadr hads
                  simp only at hadr hads
                  cases r₅ with
                  | error e => exact resGood_err e s₅ (hadr e rfl) hads
                  | ok t₅ =>
                    simp only
                    rcases hpk₂ : peekToken s₅ with ⟨r₆, s₆⟩
                    obtain ⟨hpr₂, hps₂⟩ := peekToken_good s₅ hads
                    rw [hpk₂] at hpr₂ hps₂
                    simp only at hpr₂ hps₂
                    cases r₆ with
                    | error e => exact ihOL _ s₆ hps₂
                    | ok nt =>
                      simp only
                      by_cases hnb : nt.tokenType = .rightBrace
                      · rw [if_pos hnb]
                        exact resGood_err _ s₆ trivial hps₂
                      · rw [if_neg hnb]
                        exact ihOL _ s₆ hps₂
    · -- parseArray
      rw [parseArray]
      rcases hex : expectToken .leftBracket s with ⟨r, s₁⟩
      obtain ⟨hexr, hexs⟩ := expectToken_good .leftBracket s hs
      rw [hex] at hexr hexs
      simp only at hexr hexs
      simp only
      cases r with
      | error e => exact resGood_err e s₁ (hexr e rfl) hexs
      | ok t =>
        simp only
        rcases hpk : peekToken s₁ with ⟨r₂, s₂⟩
        obtain ⟨hpr, hps⟩ := peekToken_good s₁ hexs
        rw [hpk] at hpr hps
        simp only at hpr hps
        cases r₂ with
        | error e => exact ihAL [] s₂ hps
        | ok t₂ =>
          simp only
          by_cases hrb : t₂.tokenType = .rightBracket
          · rw [if_pos hrb]
            rcases hadv : advanceToken s₂ with ⟨r₃, s₃⟩
            obtain ⟨hadr, hads⟩ := advanceToken_good s₂ hps
            rw [hadv] at hadr hads
            simp only at hadr hads
            cases r₃ with
            | error e => exact resGood_err e s₃ (hadr e rfl) hads
            | ok t₃ => exact resGood_ok _ s₃ hads
          · rw [if_neg hrb]
            exact ihAL [] s₂ hps
    · -- parseArrayLoop
      rw [parseArrayLoop]
      rcases hv : parseValue n s with ⟨r, s₁⟩
      obtain ⟨hvr, hvs⟩ := ihV s hs
      rw [hv] at hvr hvs
      simp only at hvr hvs
      simp only
      cases r with
      | error e => exact resGood_err e s₁ (hvr e rfl) hvs
      | ok v =>
        simp only
        rcases hpk : peekToken s₁ with ⟨r₂, s₂⟩
        obtain ⟨hpr, hps⟩ := peekToken_good s₁ hvs
        rw [hpk] at hpr hps
        simp only at hpr hps
        cases r₂ with
        | error e => exact resGood_err e s₂ (hpr e rfl) hps
        | ok sep =>
          simp only
          cases hst : sep.tokenType
          case leftBrace =>
            exact resGood_err _ s₂ trivial hps
          case rightBrace =>
            exact resGood_err _ s₂ trivial hps
          case leftBracket =>
            exact resGood_err _ s₂ trivial hps
          case colon =>
            exact resGood_err _ s₂ trivial hps
          case string sv2 =>
            exact resGood_err _ s₂ trivial hps
          case number nv2 =>
            exact resGood_err _ s₂ trivial hps
          case boolean bv2 =>
            exact resGood_err _ s₂ trivial hps
          case null =>
            exact resGood_err _ s₂ trivial hps
          case eof =>
            exact resGood_err _ s₂ trivial hps
          case rightBracket =>
            simp only
            rcases hadv : advanceToken s₂ with ⟨r₃, s₃⟩
            obtain ⟨hadr, hads⟩ := advanceToken_good s₂ hps
            rw [hadv] at hadr hads
            simp only at hadr hads
            cases r₃ with
            | error e => exact resGood_err e s₃ (hadr e rfl) hads
            | ok t₃ => exact resGood_ok _ s₃ hads
          case comma =>
            simp only
            rcases hadv : advanceToken s₂ with ⟨r₃, s₃⟩
            obtain ⟨hadr, hads⟩ := advanceToken_good s₂ hps
            rw [hadv] at hadr hads
            simp only at hadr hads
            cases r₃ with
            | error e => exact resGood_err e s₃ (hadr e rfl) hads
            | ok t₃ =>
              simp only
              rcases hpk₂ : peekToken s₃ with ⟨r₄, s₄⟩
              obtain ⟨hpr₂, hps₂⟩ := peekToken_good s₃ hads
              rw [hpk₂] at hpr₂ hps₂
              simp only at hpr₂ hps₂
              cases r₄ with
              | error e => exact ihAL _ s₄ hps₂
              | ok nt =>
                simp only
                by_cases hnb : nt.tokenType = .rightBracket
                · rw [if_pos hnb]
                  exact resGood_err _ s₄ trivial hps₂
                · rw [if_neg hnb]
                  exact ihAL _ s₄ hps₂

/-- parse_single yields only good errors from a fresh (or good) state:
the value parse is covered by the recursion lemma, the trailing peek by
the lexer lemmas, and the trailing-content rejection is itself an
`unexpectedToken`. -/
theorem parseSingle_good (fuel : Nat) (s : PState) (hs : goodPeek s) :
    ∀ e, (parseSingle fuel s).1 = .error e → goodErr e := by
  intro e he
  rw [parseSingle] at he
  rcases hv : parseValue fuel s with ⟨r, s₁⟩
  obtain ⟨hvr, hvs⟩ := (parser_good fuel).1 s hs
  rw [hv] at hvr hvs he
  simp only at hvr hvs
  cases r with
  | error e₁ =>
    simp only at he
    injection he with he'
    subst he'
    exact hvr _ rfl
  | ok v =>
    simp only at he
    rcases hpk : peekToken s₁ with ⟨r₂, s₂⟩
    obtain ⟨hpr, hps⟩ := peekToken_good s₁ hvs
    rw [hpk] at hpr hps he
    simp only at hpr hps
    cases r₂ with
    | error e₂ =>
      simp only at he
      injection he with he'
      subst he'
      exact hpr _ rfl
    | ok t =>
      simp only at he
      by_cases het : t.tokenType = TokenType.eof
      · rw [if_pos het] at he
        exact Except.noConfusion he
      · rw [if_neg het] at he
        injection he with he'
        subst he'
        trivial

/-- A good error is neither `UnexpectedEof` nor `InvalidStructure`. -/
theorem goodErr_spell (e : ParseError) (h : goodErr e) :
    (∀ p, e ≠ ParseError.unexpectedEof p) ∧
    (∀ p, e ≠ ParseError.invalidStructure p) := by
  cases e <;> simp_all [goodErr]

/-- C9: no run of the single-document parser and no lexing step ever
surfaces the `UnexpectedEof` or `InvalidStructure` error variants; end
of input where a value was expected is reported as `UnexpectedToken`
with the `Eof` lexeme as the found description, as on the empty input. -/
theorem claim_C9_no_eof_structure :
    (∀ l : List Char, ∀ e, parseJsonChars l = .error e →
        (∀ p, e ≠ ParseError.unexpectedEof p) ∧
        (∀ p, e ≠ ParseError.invalidStructure p)) ∧
    (∀ st : LexState, ∀ e st₂, lexNext st = (.error e, st₂) →
        (∀ p, e ≠ ParseError.unexpectedEof p) ∧
        (∀ p, e ≠ ParseError.invalidStructure p)) ∧
    parse_json_string "" = .error (.unexpectedToken "JSON value" "Eof" 0) := by
  refine ⟨fun l e he => ?_, fun st e st₂ he => ?_, rfl⟩
  · exact goodErr_spell e
      (parseSingle_good (l.length + 1) ⟨⟨l, 0⟩, none, none⟩ (fun e h => by cases h) e he)
  · exact goodErr_spell e (lexErrOK_good e ((lexNext_mono st (.error e) st₂ he).2.2.2 e rfl).1)

/-- C9 at a concrete erroring input: the `@` document fails with
`InvalidCharacter`, which is neither of the two unreachable variants. -/
theorem claim_C9_no_eof_structure_witness :
    (∀ p, ParseError.invalidCharacter '@' 0 ≠ ParseError.unexpectedEof p) ∧
    (∀ p, ParseError.invalidCharacter '@' 0 ≠ ParseError.invalidStructure p) :=
  claim_C9_no_eof_structure.1 ['@'] (ParseError.invalidCharacter '@' 0) rfl
